import Mathlib

/-!
Verification of the GeminiAutoPM project-management core: a shallow
embedding in Lean 4 of the dependency/status engine, naming utilities,
metadata codec, audit log and tool registry, with theorems checking the
natural-language specification against the code.

Sources embedded (TypeScript):
- `src/lib/file-ops.ts` (validation utilities, memory bank)
- `src/lib/frontmatter.ts` (metadata codec and update functions)
- `src/registry/tool-registry.ts` and `src/clients/context7-client.ts`
- `src/servers/pm-server.ts` (ready-set computation in `registerEpicStatus`)

Machine integers are modelled as `Nat`/`Int`; JavaScript strings as Lean
`String`/`List Char` (`toLowerCase` is modelled on the ASCII range, which
is the only range relevant to the slug pipeline).
-/

namespace GeminiAutoPM

/-! ## Task status (the `z.enum(['open','in-progress','completed','blocked'])`
of `file-ops.ts` / `frontmatter.ts`) -/

inductive TStatus
  | sOpen
  | sInProgress
  | sCompleted
  | sBlocked
deriving DecidableEq

/-! ## Ready-set computation (`registerEpicStatus` in `pm-server.ts`)

A task as it is read for the epic-status query: number, name, `depends_on`
and status, taken from the parsed task frontmatter. -/

structure PMTask where
  number : String
  name : String
  depends_on : List String
  status : TStatus
deriving DecidableEq

/-- `pm-server.ts`: `tasks.completed` holds the tasks whose status is
`completed`; `completedTaskNumbers` is the set of their numbers. -/
def completedNumbers (tasks : List PMTask) : List String :=
  (tasks.filter (fun t => t.status == TStatus.sCompleted)).map (fun t => t.number)

/-- `pm-server.ts`: the `default` branch of the status switch puts a task
into the `open` bucket; with the validated status enum this is exactly the
tasks whose status is `open`. -/
def openTasks (tasks : List PMTask) : List PMTask :=
  tasks.filter (fun t => t.status == TStatus.sOpen)

/-- `pm-server.ts` lines 1372-1379: `nextTasks = tasks.open.filter(task =>
task.depends_on.length === 0 || task.depends_on.every(dep =>
completedTaskNumbers.has(dep)))` (the code spells the empty case as an
early `return true`). -/
def nextTasks (tasks : List PMTask) : List PMTask :=
  let completedSet := completedNumbers tasks
  (openTasks tasks).filter (fun t =>
    if t.depends_on.isEmpty then true
    else t.depends_on.all (fun d => completedSet.contains d))

/-! ## Conflict validation (`validateConflicts` in `file-ops.ts`) -/

/-- The error message template of `validateConflicts`. -/
def conflictMsg (dep : String) : String :=
  "Task " ++ dep ++ " cannot be both a dependency and a conflict"

/-- `file-ops.ts` lines 950-971: iterate over the (insertion-ordered,
deduplicated) dependency set and fail on the first member of the conflict
set; deduplication does not change which element is found first, so this
is `find?` over the original list. -/
def validateConflicts (dependencies conflicts : List String) : Option String :=
  match dependencies.find? (fun d => conflicts.contains d) with
  | some d => some (conflictMsg d)
  | none => none

/-! ## Task-number codec (`generateTaskNumber` / `parseTaskNumber` in
`file-ops.ts`)

Decimal digit rendering is embedded with explicit fuel so that every
definition computes by kernel reduction. -/

def digitChar (d : Nat) : Char :=
  match d with
  | 0 => '0'
  | 1 => '1'
  | 2 => '2'
  | 3 => '3'
  | 4 => '4'
  | 5 => '5'
  | 6 => '6'
  | 7 => '7'
  | 8 => '8'
  | _ => '9'

def digitVal (c : Char) : Nat := c.toNat - 48

/-- Least-significant-first decimal digits of `n`, with fuel. -/
def natDigitsRevAux : Nat → Nat → List Char
  | 0, _ => []
  | fuel + 1, n =>
    if n < 10 then [digitChar n]
    else digitChar (n % 10) :: natDigitsRevAux fuel (n / 10)

/-- Decimal digit string of `n`, most significant first (the model of
JavaScript `String(n)` for a non-negative integer). -/
def natDigits (n : Nat) : List Char :=
  (natDigitsRevAux (n + 1) n).reverse

/-- Value of a most-significant-first digit list. -/
def digitsVal (l : List Char) : Nat :=
  l.foldl (fun acc c => 10 * acc + digitVal c) 0

/-- Value of a least-significant-first digit list. -/
def valRev : List Char → Nat
  | [] => 0
  | c :: r => digitVal c + 10 * valRev r

/-- `String(x).padStart(3, '0')` on a digit list. -/
def padThree (l : List Char) : List Char :=
  List.replicate (3 - l.length) '0' ++ l

/-- `file-ops.ts` lines 773-775: `String(taskIndex + 1).padStart(3, '0')`
(the parameter is documented as a 0-based index). -/
def generateTaskNumber (taskIndex : Nat) : String :=
  String.mk (padThree (natDigits (taskIndex + 1)))

/-- `file-ops.ts` lines 783-785: `parseInt(taskNumber, 10) - 1`.
`parseInt` is modelled on digit-leading strings (the only inputs the
program feeds it): the value of the longest digit head. -/
def parseTaskNumber (s : String) : Int :=
  (digitsVal (s.data.takeWhile Char.isDigit) : Int) - 1

/-! ### Digit-codec lemmas -/

theorem digitVal_digitChar {d : Nat} (hd : d < 10) : digitVal (digitChar d) = d := by
  interval_cases d <;> rfl

theorem digitChar_isDigit (d : Nat) : (digitChar d).isDigit = true := by
  rcases d with _ | _ | _ | _ | _ | _ | _ | _ | _ | d <;> rfl

theorem valRev_natDigitsRevAux :
    ∀ (fuel n : Nat), n < 10 ^ fuel → valRev (natDigitsRevAux fuel n) = n := by
  intro fuel
  induction fuel with
  | zero =>
    intro n hn
    simp [Nat.pow_zero] at hn
    simp [natDigitsRevAux, valRev, hn]
  | succ fuel ih =>
    intro n hn
    rw [natDigitsRevAux]
    by_cases h : n < 10
    · simp [h, valRev, digitVal_digitChar h]
    · have hdiv : n / 10 < 10 ^ fuel := by
        have : n < 10 ^ fuel * 10 := by
          calc n < 10 ^ (fuel + 1) := hn
          _ = 10 ^ fuel * 10 := by ring
        exact Nat.div_lt_of_lt_mul (by omega)
      simp only [h, if_false, valRev, ih (n / 10) hdiv,
        digitVal_digitChar (Nat.mod_lt n (by omega))]
      omega

theorem natDigitsRevAux_isDigit :
    ∀ (fuel n : Nat), ∀ c ∈ natDigitsRevAux fuel n, c.isDigit = true := by
  intro fuel
  induction fuel with
  | zero => intro n c hc; simp [natDigitsRevAux] at hc
  | succ fuel ih =>
    intro n c hc
    rw [natDigitsRevAux] at hc
    by_cases h : n < 10
    · simp [h] at hc
      simp [hc, digitChar_isDigit]
    · simp [h] at hc
      rcases hc with hc | hc
      · simp [hc, digitChar_isDigit]
      · exact ih _ c hc

theorem natDigitsRevAux_length :
    ∀ (fuel k n : Nat), n < 10 ^ k → 1 ≤ k → (natDigitsRevAux fuel n).length ≤ k := by
  intro fuel
  induction fuel with
  | zero => intro k n _ _; simp [natDigitsRevAux]
  | succ fuel ih =>
    intro k n hn hk
    rw [natDigitsRevAux]
    by_cases h : n < 10
    · simp [h]; omega
    · simp only [h, if_false, List.length_cons]
      have hk2 : 2 ≤ k := by
        by_contra hcon
        have : k = 1 := by omega
        subst this
        simp at hn
        omega
      have hdiv : n / 10 < 10 ^ (k - 1) := by
        have h1 : n < 10 ^ (k - 1) * 10 := by
          have : 10 ^ k = 10 ^ (k - 1) * 10 := by
            conv_lhs => rw [show k = (k - 1) + 1 by omega]
            ring
          omega
        exact Nat.div_lt_of_lt_mul (by omega)
      have := ih (k - 1) (n / 10) hdiv (by omega)
      omega

theorem digitsVal_append_singleton (l : List Char) (c : Char) :
    digitsVal (l ++ [c]) = 10 * digitsVal l + digitVal c := by
  simp [digitsVal, List.foldl_append]

theorem digitsVal_reverse (l : List Char) : digitsVal l.reverse = valRev l := by
  induction l with
  | nil => rfl
  | cons c r ih =>
    simp [List.reverse_cons, digitsVal_append_singleton, valRev, ih]
    omega

theorem digitsVal_natDigits (n : Nat) : digitsVal (natDigits n) = n := by
  have hpow : n < 10 ^ (n + 1) := by
    have h1 : n < 2 ^ n := Nat.lt_two_pow n
    have h2 : 2 ^ n ≤ 2 ^ (n + 1) := Nat.pow_le_pow_right (by omega) (by omega)
    have h3 : 2 ^ (n + 1) ≤ 10 ^ (n + 1) := Nat.pow_le_pow_left (by omega) _
    omega
  rw [natDigits, digitsVal_reverse, valRev_natDigitsRevAux _ _ hpow]

theorem digitsVal_replicate_zero (k : Nat) (l : List Char) :
    digitsVal (List.replicate k '0' ++ l) = digitsVal l := by
  induction k with
  | zero => simp
  | succ k ih =>
    simp only [List.replicate_succ, List.cons_append]
    show digitsVal (List.replicate k '0' ++ l) = digitsVal l
    exact ih

theorem takeWhile_all {p : Char → Bool} :
    ∀ l : List Char, (∀ c ∈ l, p c = true) → l.takeWhile p = l := by
  intro l h
  induction l with
  | nil => rfl
  | cons c r ih =>
    rw [List.takeWhile_cons, h c (by simp)]
    simp [ih (fun x hx => h x (by simp [hx]))]

theorem ifEmpty_all (l : List String) (p : String → Bool) :
    (if l.isEmpty then true else l.all p) = l.all p := by
  cases l <;> simp

/-! ## Claim theorems for C1, C8, C9 -/

/-- C1. Ready-set membership: an `open` task is in `nextTasks` iff every id
in its `depends_on` list is the number of a `completed` task; in
particular an open task with empty `depends_on` is always included. -/
theorem c1_ready_set_membership (tasks : List PMTask) (t : PMTask) :
    (t ∈ nextTasks tasks ↔
      t ∈ tasks ∧ t.status = TStatus.sOpen ∧
        ∀ d ∈ t.depends_on, ∃ u ∈ tasks, u.status = TStatus.sCompleted ∧ u.number = d) ∧
    (t ∈ tasks → t.status = TStatus.sOpen → t.depends_on = [] → t ∈ nextTasks tasks) := by
  have hmem : ∀ d, (completedNumbers tasks).contains d = true ↔
      ∃ u ∈ tasks, u.status = TStatus.sCompleted ∧ u.number = d := by
    intro d
    simp [completedNumbers, List.mem_filter, beq_iff_eq, and_assoc]
  have hmain : t ∈ nextTasks tasks ↔
      t ∈ tasks ∧ t.status = TStatus.sOpen ∧
        ∀ d ∈ t.depends_on, ∃ u ∈ tasks, u.status = TStatus.sCompleted ∧ u.number = d := by
    simp only [nextTasks, List.mem_filter, ifEmpty_all, List.all_eq_true,
      openTasks, beq_iff_eq]
    constructor
    · rintro ⟨⟨ht, hs⟩, hdeps⟩
      exact ⟨ht, hs, fun d hd => (hmem d).mp (hdeps d hd)⟩
    · rintro ⟨ht, hs, hdeps⟩
      exact ⟨⟨ht, hs⟩, fun d hd => (hmem d).mpr (hdeps d hd)⟩
  refine ⟨hmain, ?_⟩
  intro ht hs hdep
  exact hmain.mpr ⟨ht, hs, by simp [hdep]⟩

theorem c1_ready_set_membership_witness :
    (⟨"002", "build", ["001"], TStatus.sOpen⟩ : PMTask) ∈
      nextTasks [⟨"001", "setup", [], TStatus.sCompleted⟩,
        ⟨"002", "build", ["001"], TStatus.sOpen⟩] :=
  (c1_ready_set_membership [⟨"001", "setup", [], TStatus.sCompleted⟩,
      ⟨"002", "build", ["001"], TStatus.sOpen⟩]
    ⟨"002", "build", ["001"], TStatus.sOpen⟩).1.mpr (by decide)

/-- C9. Conflict rejection: `validateConflicts` accepts iff the dependency
and conflict lists are disjoint, and on rejection the error message names
an id in the intersection. -/
theorem c9_conflict_rejection (deps confs : List String) :
    (validateConflicts deps confs = none ↔ ∀ d ∈ deps, d ∉ confs) ∧
    (∀ e, validateConflicts deps confs = some e →
      ∃ d, d ∈ deps ∧ d ∈ confs ∧ e = conflictMsg d) := by
  unfold validateConflicts
  cases h : deps.find? (fun d => confs.contains d) with
  | none =>
    rw [List.find?_eq_none] at h
    refine ⟨⟨fun _ d hd hdc => ?_, fun _ => rfl⟩, fun e he => by simp at he⟩
    exact h d hd (by simpa using hdc)
  | some d =>
    have hd := List.mem_of_find?_eq_some h
    have hdc : d ∈ confs := by simpa using List.find?_some h
    refine ⟨⟨fun hcon => absurd hcon (by simp), fun hall => absurd hdc (hall d hd)⟩, ?_⟩
    intro e he
    simp only [Option.some.injEq] at he
    exact ⟨d, hd, hdc, he.symm⟩

theorem c9_conflict_rejection_witness :
    ∃ d, d ∈ ["001", "002"] ∧ d ∈ ["002", "003"] ∧
      conflictMsg "002" = conflictMsg d :=
  (c9_conflict_rejection ["001", "002"] ["002", "003"]).2
    (conflictMsg "002") (by decide)

/-- C8 counterexample: at index 999 — inside the claimed range 1..999 —
the generated task number is the four-character string "1000", not a
zero-padded 3-digit string. -/
theorem c8_task_number_counterexample :
    generateTaskNumber 999 = "1000" ∧ (generateTaskNumber 999).length ≠ 3 := by
  constructor <;> decide

/-- C8 (amended). `parseTaskNumber` inverts `generateTaskNumber` at every
index, and the generated string is a zero-padded 3-digit string exactly
for indexes up to 998 (i.e. task numbers 001..999). -/
theorem c8_task_number_round_trip (i : Nat) :
    parseTaskNumber (generateTaskNumber i) = i ∧
      (i ≤ 998 → (generateTaskNumber i).length = 3) := by
  constructor
  · show (digitsVal (((String.mk (padThree (natDigits (i + 1)))).data).takeWhile
      Char.isDigit) : Int) - 1 = i
    have hdig : ∀ c ∈ padThree (natDigits (i + 1)), c.isDigit = true := by
      intro c hc
      rw [padThree] at hc
      rcases List.mem_append.mp hc with hc | hc
      · rw [List.eq_of_mem_replicate hc]; rfl
      · rw [natDigits, List.mem_reverse] at hc
        exact natDigitsRevAux_isDigit _ _ c hc
    rw [show (String.mk (padThree (natDigits (i + 1)))).data
          = padThree (natDigits (i + 1)) from rfl,
        takeWhile_all _ hdig, padThree, digitsVal_replicate_zero,
        digitsVal_natDigits]
    omega
  · intro hi
    show (String.mk (padThree (natDigits (i + 1)))).length = 3
    have hlen : (natDigits (i + 1)).length ≤ 3 := by
      rw [natDigits, List.length_reverse]
      exact natDigitsRevAux_length _ 3 _ (by omega) (by omega)
    show (padThree (natDigits (i + 1))).length = 3
    rw [padThree, List.length_append, List.length_replicate]
    omega

theorem c8_task_number_round_trip_witness :
    parseTaskNumber (generateTaskNumber 41) = 41 ∧
      (generateTaskNumber 41).length = 3 :=
  ⟨(c8_task_number_round_trip 41).1, (c8_task_number_round_trip 41).2 (by omega)⟩

/-! ## Epic-name sanitization and validation (`sanitizeEpicName`,
`EpicNameSchema` / `validateEpicName` in `file-ops.ts`)

Characters are compared through their code points; `toLowerCase` and the
whitespace class are modelled on the ASCII range, the only range that can
survive the `[^a-z0-9-\s]` filter. -/

/-- ASCII lowercase letters and digits, the `[a-z0-9]` class. -/
def isLowerAlnum (c : Char) : Bool :=
  (97 ≤ c.toNat && c.toNat ≤ 122) || (48 ≤ c.toNat && c.toNat ≤ 57)

/-- The whitespace class used by `trim` and `\s` (ASCII part). -/
def jsIsSpace (c : Char) : Bool :=
  c == ' ' || c == '\t' || c == '\n' || c == '\r'

/-- ASCII alphanumeric characters (for counting them in the raw input). -/
def isAlnumAscii (c : Char) : Bool :=
  (97 ≤ c.toNat && c.toNat ≤ 122) || (65 ≤ c.toNat && c.toNat ≤ 90) ||
    (48 ≤ c.toNat && c.toNat ≤ 57)

/-- `String.prototype.toLowerCase` on the ASCII range. -/
def jsToLowerChar (c : Char) : Char :=
  if 65 ≤ c.toNat && c.toNat ≤ 90 then Char.ofNat (c.toNat + 32) else c

/-- The class kept by the removal regex `[^a-z0-9-\s]`. -/
def keepChar (c : Char) : Bool :=
  isLowerAlnum c || c == '-' || jsIsSpace c

/-- `String.prototype.trim` (strip whitespace at both ends). -/
def jsTrim (l : List Char) : List Char :=
  ((l.dropWhile jsIsSpace).reverse.dropWhile jsIsSpace).reverse

/-- `replace(/p+/g, r)` for a character class `p`: collapse every maximal
run of `p`-characters into the single character `r`. -/
def collapseRuns (p : Char → Bool) (r : Char) : List Char → List Char
  | [] => []
  | [c] => if p c then [r] else [c]
  | c :: d :: rest =>
    if p c && p d then collapseRuns p r (d :: rest)
    else (if p c then r else c) :: collapseRuns p r (d :: rest)

/-- Drop one leading hyphen: the first alternative of the final global
replacement of a leading or trailing hyphen by the empty string. -/
def dropLeadingHyphen : List Char → List Char
  | [] => []
  | c :: r => if c = '-' then r else c :: r

/-- Drop one trailing hyphen: the second alternative of that final
replacement. -/
def dropTrailingHyphen : List Char → List Char
  | [] => []
  | [c] => if c = '-' then [] else [c]
  | c :: d :: rest => c :: dropTrailingHyphen (d :: rest)

/-- `file-ops.ts` lines 756-764: lower-case, trim, remove characters
outside `[a-z0-9-\s]`, collapse whitespace runs to single hyphens,
collapse hyphen runs, trim one leading and one trailing hyphen. -/
def sanitizeEpicName (name : String) : String :=
  String.mk (dropTrailingHyphen (dropLeadingHyphen (
    collapseRuns (fun c => c == '-') '-' (
    collapseRuns jsIsSpace '-' (
    (jsTrim (name.data.map jsToLowerChar)).filter keepChar)))))

/-- The regex `^[a-z0-9]+(-[a-z0-9]+)*$` as a two-state matcher; the flag
is `true` while a fresh nonempty `[a-z0-9]+` group is still owed. -/
def slugAux : Bool → List Char → Bool
  | needChar, [] => !needChar
  | true, c :: rest => isLowerAlnum c && slugAux false rest
  | false, c :: rest =>
    if c == '-' then slugAux true rest
    else isLowerAlnum c && slugAux false rest

def matchesSlug (s : String) : Bool := slugAux true s.data

/-- `file-ops.ts` lines 639-646 and 689-703: `EpicNameSchema` (min 3,
max 50, slug regex) checked by `safeParse`; the boolean is the `valid`
flag of the result (`validateEpicName` never throws). -/
def validateEpicName (name : String) : Bool :=
  decide (3 ≤ name.length) && decide (name.length ≤ 50) && matchesSlug name

/-- Number of ASCII alphanumeric characters of a string. -/
def alnumCount (s : String) : Nat := s.data.countP isAlnumAscii

/-- No two adjacent hyphens. -/
def noAdj : List Char → Prop
  | [] => True
  | [_] => True
  | a :: b :: rest => (a ≠ '-' ∨ b ≠ '-') ∧ noAdj (b :: rest)

theorem char_toNat_ofNat (n : Nat) (h : Nat.isValidChar n) :
    (Char.ofNat n).toNat = n := by
  unfold Char.ofNat
  rw [dif_pos h]
  rfl

theorem char_eq_of_toNat {c d : Char} (h : c.toNat = d.toNat) : c = d :=
  Char.ext (UInt32.ext h)

/-! ### Character-class lemmas for the slug pipeline -/

theorem jsToLowerChar_alnum {c : Char} (h : isAlnumAscii c = true) :
    isLowerAlnum (jsToLowerChar c) = true := by
  simp only [isAlnumAscii, Bool.or_eq_true, Bool.and_eq_true, decide_eq_true_eq] at h
  simp only [jsToLowerChar]
  by_cases hu : 65 ≤ c.toNat ∧ c.toNat ≤ 90
  · rw [if_pos (by simp [hu.1, hu.2])]
    have hv : Nat.isValidChar (c.toNat + 32) := Or.inl (by omega)
    simp only [isLowerAlnum, char_toNat_ofNat _ hv, Bool.or_eq_true,
      Bool.and_eq_true, decide_eq_true_eq]
    omega
  · rw [if_neg (by simpa using fun h1 h2 => hu ⟨h1, h2⟩)]
    simp only [isLowerAlnum, Bool.or_eq_true, Bool.and_eq_true, decide_eq_true_eq]
    omega

theorem isLowerAlnum_toNat {c : Char} (h : isLowerAlnum c = true) :
    (97 ≤ c.toNat ∧ c.toNat ≤ 122) ∨ (48 ≤ c.toNat ∧ c.toNat ≤ 57) := by
  simpa [isLowerAlnum] using h

theorem isLowerAlnum_not_space {c : Char} (h : isLowerAlnum c = true) :
    jsIsSpace c = false := by
  rcases isLowerAlnum_toNat h with h' | h' <;>
  · simp only [jsIsSpace, Bool.or_eq_false_iff, beq_eq_false_iff_ne]
    refine ⟨⟨⟨fun hc => ?_, fun hc => ?_⟩, fun hc => ?_⟩, fun hc => ?_⟩ <;>
      (subst hc; revert h'; decide)

theorem isLowerAlnum_not_hyphen {c : Char} (h : isLowerAlnum c = true) :
    c ≠ '-' := by
  intro hc
  subst hc
  exact absurd h (by decide)

theorem keepChar_cases {c : Char} (h : keepChar c = true) :
    isLowerAlnum c = true ∨ c = '-' ∨ jsIsSpace c = true := by
  simp only [keepChar, Bool.or_eq_true, beq_iff_eq] at h
  tauto

theorem keepChar_of_alnum {c : Char} (h : isLowerAlnum c = true) :
    keepChar c = true := by
  simp [keepChar, h]

/-! ### countP preservation along the pipeline -/

theorem countP_dropWhile (p q : Char → Bool) (hq : ∀ c, q c = true → p c = false) :
    ∀ l : List Char, (l.dropWhile q).countP p = l.countP p := by
  intro l
  induction l with
  | nil => rfl
  | cons c rest ih =>
    rw [List.dropWhile_cons]
    by_cases hc : q c = true
    · rw [if_pos hc, ih, List.countP_cons, hq c hc]
      simp
    · rw [if_neg hc]

theorem countP_jsTrim (p : Char → Bool) (hp : ∀ c, jsIsSpace c = true → p c = false)
    (l : List Char) : (jsTrim l).countP p = l.countP p := by
  rw [jsTrim, List.countP_reverse, countP_dropWhile p jsIsSpace hp,
    List.countP_reverse, countP_dropWhile p jsIsSpace hp]

theorem countP_filter_keep (p q : Char → Bool) (hpq : ∀ c, p c = true → q c = true) :
    ∀ l : List Char, (l.filter q).countP p = l.countP p := by
  intro l
  induction l with
  | nil => rfl
  | cons c rest ih =>
    rw [List.filter_cons]
    by_cases hc : q c = true
    · rw [if_pos hc, List.countP_cons, List.countP_cons, ih]
    · rw [if_neg hc, List.countP_cons, ih]
      have hpc : p c = false := by
        cases hpc : p c
        · rfl
        · exact absurd (hpq c hpc) hc
      simp [hpc]

theorem countP_collapseRuns (pa pr : Char → Bool) (r : Char)
    (hr : pa r = false) (hpr : ∀ c, pr c = true → pa c = false) :
    ∀ l : List Char, (collapseRuns pr r l).countP pa = l.countP pa := by
  intro l
  induction l with
  | nil => rfl
  | cons c rest ih =>
    cases rest with
    | nil =>
      show (if pr c then [r] else [c]).countP pa = _
      by_cases hc : pr c = true
      · simp [hc, List.countP_cons, hr, hpr c hc]
      · simp [hc]
    | cons d rest' =>
      show (if pr c && pr d then collapseRuns pr r (d :: rest')
        else (if pr c then r else c) :: collapseRuns pr r (d :: rest')).countP pa = _
      by_cases hcd : (pr c && pr d) = true
      · rw [if_pos hcd, ih, List.countP_cons]
        rw [Bool.and_eq_true] at hcd
        simp [hpr c hcd.1, List.countP_cons]
      · rw [if_neg hcd, List.countP_cons, ih, List.countP_cons]
        by_cases hc : pr c = true
        · simp [hc, hr, hpr c hc, List.countP_cons]
        · simp [hc, List.countP_cons]

theorem countP_dropLeadingHyphen (p : Char → Bool) (hp : p '-' = false)
    (l : List Char) : (dropLeadingHyphen l).countP p = l.countP p := by
  cases l with
  | nil => rfl
  | cons c rest =>
    show (if c = '-' then rest else c :: rest).countP p = _
    by_cases hc : c = '-'
    · subst hc
      simp [List.countP_cons, hp]
    · rw [if_neg hc]

theorem countP_dropTrailingHyphen (p : Char → Bool) (hp : p '-' = false) :
    ∀ l : List Char, (dropTrailingHyphen l).countP p = l.countP p := by
  intro l
  induction l with
  | nil => rfl
  | cons c rest ih =>
    cases rest with
    | nil =>
      show (if c = '-' then [] else [c]).countP p = _
      by_cases hc : c = '-'
      · subst hc; simp [List.countP_cons, hp]
      · rw [if_neg hc]
    | cons d rest' =>
      show (c :: dropTrailingHyphen (d :: rest')).countP p = _
      rw [List.countP_cons, List.countP_cons, ih]

/-! ### Structure of the collapsed / trimmed hyphen lists -/

theorem mem_collapseRuns (p : Char → Bool) (r : Char) :
    ∀ l : List Char, ∀ c ∈ collapseRuns p r l, c = r ∨ (c ∈ l ∧ p c = false) := by
  intro l
  induction l with
  | nil => intro c hc; simp [collapseRuns] at hc
  | cons a rest ih =>
    cases rest with
    | nil =>
      intro c hc
      by_cases ha : p a = true
      · simp [collapseRuns, ha] at hc
        exact Or.inl hc
      · simp [collapseRuns, ha] at hc
        subst hc
        exact Or.inr ⟨by simp, by simpa using ha⟩
    | cons b rest' =>
      intro c hc
      rw [show collapseRuns p r (a :: b :: rest')
          = if p a && p b then collapseRuns p r (b :: rest')
            else (if p a then r else a) :: collapseRuns p r (b :: rest') from rfl] at hc
      by_cases hab : (p a && p b) = true
      · rw [if_pos hab] at hc
        rcases ih c hc with h | h
        · exact Or.inl h
        · exact Or.inr ⟨by simp [h.1], h.2⟩
      · rw [if_neg hab] at hc
        rcases List.mem_cons.mp hc with h | h
        · by_cases ha : p a = true
          · simp [ha] at h
            exact Or.inl h
          · simp [ha] at h
            subst h
            exact Or.inr ⟨by simp, by simpa using ha⟩
        · rcases ih c h with h' | h'
          · exact Or.inl h'
          · exact Or.inr ⟨by simp [h'.1], h'.2⟩

theorem collapseRuns_cons_head (p : Char → Bool) (r : Char) :
    ∀ (a : Char) (rest : List Char), ∃ t,
      collapseRuns p r (a :: rest) = (if p a then r else a) :: t := by
  intro a rest
  induction rest generalizing a with
  | nil =>
    by_cases ha : p a = true
    · exact ⟨[], by simp [collapseRuns, ha]⟩
    · exact ⟨[], by simp [collapseRuns, ha]⟩
  | cons b rest' ih =>
    rw [show collapseRuns p r (a :: b :: rest')
        = if p a && p b then collapseRuns p r (b :: rest')
          else (if p a then r else a) :: collapseRuns p r (b :: rest') from rfl]
    by_cases hab : (p a && p b) = true
    · rw [if_pos hab]
      rw [Bool.and_eq_true] at hab
      obtain ⟨t, ht⟩ := ih b
      exact ⟨t, by rw [ht, if_pos hab.2, if_pos hab.1]⟩
    · exact ⟨collapseRuns p r (b :: rest'), by rw [if_neg hab]⟩

/-- After collapsing hyphen runs to a single hyphen, no two adjacent
characters are both hyphens. -/
theorem noAdj_collapseHyphens :
    ∀ l : List Char, noAdj (collapseRuns (fun c => c == '-') '-' l) := by
  intro l
  induction l with
  | nil => trivial
  | cons a rest ih =>
    cases rest with
    | nil =>
      by_cases ha : (a == '-') = true
      · simp only [collapseRuns, ha, if_true]
        trivial
      · simp only [collapseRuns, ha, if_false]
        trivial
    | cons b rest' =>
      rw [show collapseRuns (fun c => c == '-') '-' (a :: b :: rest')
          = if (a == '-') && (b == '-') then collapseRuns (fun c => c == '-') '-' (b :: rest')
            else (if a == '-' then '-' else a) ::
              collapseRuns (fun c => c == '-') '-' (b :: rest') from rfl]
      by_cases hab : ((a == '-') && (b == '-')) = true
      · rw [if_pos hab]
        exact ih
      · rw [if_neg hab]
        obtain ⟨t, ht⟩ := collapseRuns_cons_head (fun c => c == '-') '-' b rest'
        rw [ht]
        rw [ht] at ih
        refine ⟨?_, ih⟩
        by_cases ha : a = '-'
        · have hb : ¬ b = '-' := fun hbe => hab (by simp [ha, hbe])
          have hbeq : (b == '-') = false := by simpa using hb
          right
          rw [if_neg (by simp [hbeq])]
          exact hb
        · have haeq : (a == '-') = false := by simpa using ha
          left
          rw [if_neg (by simp [haeq])]
          exact ha

theorem noAdj_tail {a : Char} {rest : List Char} (h : noAdj (a :: rest)) :
    noAdj rest := by
  cases rest with
  | nil => trivial
  | cons b r => exact h.2

theorem dropLeadingHyphen_noAdj {l : List Char} (h : noAdj l) :
    noAdj (dropLeadingHyphen l) := by
  cases l with
  | nil => trivial
  | cons c rest =>
    show noAdj (if c = '-' then rest else c :: rest)
    by_cases hc : c = '-'
    · rw [if_pos hc]
      exact noAdj_tail h
    · rw [if_neg hc]
      exact h

theorem dropLeadingHyphen_head {l : List Char} (h : noAdj l) :
    ∀ c, (dropLeadingHyphen l).head? = some c → c ≠ '-' := by
  cases l with
  | nil => intro c hc; simp [dropLeadingHyphen] at hc
  | cons a rest =>
    intro c hc
    rw [show dropLeadingHyphen (a :: rest) = if a = '-' then rest else a :: rest from rfl] at hc
    by_cases ha : a = '-'
    · rw [if_pos ha] at hc
      cases rest with
      | nil => simp at hc
      | cons b r =>
        simp at hc
        subst hc
        subst ha
        rcases h.1 with h' | h'
        · exact absurd rfl h'
        · exact h'
    · rw [if_neg ha] at hc
      simp at hc
      subst hc
      exact ha

theorem dropLeadingHyphen_mem {l : List Char} :
    ∀ c ∈ dropLeadingHyphen l, c ∈ l := by
  cases l with
  | nil => intro c hc; simp [dropLeadingHyphen] at hc
  | cons a rest =>
    intro c hc
    rw [show dropLeadingHyphen (a :: rest) = if a = '-' then rest else a :: rest from rfl] at hc
    by_cases ha : a = '-'
    · rw [if_pos ha] at hc
      exact List.mem_cons_of_mem a hc
    · rw [if_neg ha] at hc
      exact hc

theorem dropTrailingHyphen_mem :
    ∀ l : List Char, ∀ c ∈ dropTrailingHyphen l, c ∈ l := by
  intro l
  induction l with
  | nil => intro c hc; simp [dropTrailingHyphen] at hc
  | cons a rest ih =>
    cases rest with
    | nil =>
      intro c hc
      rw [show dropTrailingHyphen [a] = if a = '-' then [] else [a] from rfl] at hc
      by_cases ha : a = '-'
      · rw [if_pos ha] at hc
        simp at hc
      · rw [if_neg ha] at hc
        exact hc
    | cons b rest' =>
      intro c hc
      rw [show dropTrailingHyphen (a :: b :: rest')
          = a :: dropTrailingHyphen (b :: rest') from rfl] at hc
      rcases List.mem_cons.mp hc with h | h
      · simp [h]
      · exact List.mem_cons_of_mem a (ih c h)

theorem dropTrailingHyphen_cons_shape :
    ∀ (a : Char) (rest : List Char), dropTrailingHyphen (a :: rest) = [] ∨
      ∃ t, dropTrailingHyphen (a :: rest) = a :: t := by
  intro a rest
  cases rest with
  | nil =>
    by_cases ha : a = '-'
    · exact Or.inl (by simp [dropTrailingHyphen, ha])
    · exact Or.inr ⟨[], by simp [dropTrailingHyphen, ha]⟩
  | cons b rest' =>
    exact Or.inr ⟨dropTrailingHyphen (b :: rest'), rfl⟩

theorem dropTrailingHyphen_noAdj :
    ∀ l : List Char, noAdj l → noAdj (dropTrailingHyphen l) := by
  intro l
  induction l with
  | nil => intro _; trivial
  | cons a rest ih =>
    intro h
    cases rest with
    | nil =>
      show noAdj (if a = '-' then [] else [a])
      by_cases ha : a = '-'
      · rw [if_pos ha]; trivial
      · rw [if_neg ha]; trivial
    | cons b rest' =>
      show noAdj (a :: dropTrailingHyphen (b :: rest'))
      rcases dropTrailingHyphen_cons_shape b rest' with hsh | ⟨t, ht⟩
      · rw [hsh]; trivial
      · rw [ht]
        refine ⟨?_, ?_⟩
        · exact h.1
        · rw [← ht]
          exact ih h.2

theorem dropTrailingHyphen_getLast :
    ∀ l : List Char, noAdj l → ∀ c, (dropTrailingHyphen l).getLast? = some c →
      c ≠ '-' := by
  intro l
  induction l with
  | nil => intro _ c hc; simp [dropTrailingHyphen] at hc
  | cons a rest ih =>
    intro h c hc
    cases rest with
    | nil =>
      rw [show dropTrailingHyphen [a] = if a = '-' then [] else [a] from rfl] at hc
      by_cases ha : a = '-'
      · rw [if_pos ha] at hc
        simp at hc
      · rw [if_neg ha] at hc
        simp at hc
        subst hc
        exact ha
    | cons b rest' =>
      rw [show dropTrailingHyphen (a :: b :: rest')
          = a :: dropTrailingHyphen (b :: rest') from rfl] at hc
      rcases dropTrailingHyphen_cons_shape b rest' with hsh | ⟨t, ht⟩
      · rw [hsh] at hc
        simp at hc
        subst hc
        -- `dropTrailingHyphen (b :: rest') = []` forces `rest' = []`, `b = '-'`
        cases rest' with
        | nil =>
          by_cases hb : b = '-'
          · subst hb
            rcases h.1 with h' | h'
            · exact h'
            · exact absurd rfl h'
          · rw [show dropTrailingHyphen [b] = if b = '-' then [] else [b] from rfl,
              if_neg hb] at hsh
            simp at hsh
        | cons e r' =>
          rw [show dropTrailingHyphen (b :: e :: r')
              = b :: dropTrailingHyphen (e :: r') from rfl] at hsh
          simp at hsh
      · rw [ht] at hc
        rw [List.getLast?_cons_cons] at hc
        rw [← ht] at hc
        exact ih h.2 c hc

/-! ### The slug matcher accepts exactly the sanitized shape -/

theorem slugAux_of_invariants :
    ∀ l : List Char,
      (∀ c ∈ l, isLowerAlnum c = true ∨ c = '-') → noAdj l →
      (∀ c, l.getLast? = some c → c ≠ '-') →
      slugAux false l = true ∧
        (∀ c0, l.head? = some c0 → c0 ≠ '-' → slugAux true l = true) := by
  intro l
  induction l with
  | nil => intro _ _ _; exact ⟨rfl, fun c0 hc0 _ => by simp at hc0⟩
  | cons a rest ih =>
    intro hall hadj hlast
    have hrest := ih (fun c hc => hall c (List.mem_cons_of_mem a hc))
      (noAdj_tail hadj)
      (by
        intro c hc
        cases rest with
        | nil => simp at hc
        | cons b r =>
          exact hlast c (by rw [List.getLast?_cons_cons]; exact hc))
    have hstep : ∀ (h : a ≠ '-'), slugAux false (a :: rest) = true ∧
        slugAux true (a :: rest) = true := by
      intro hne
      have halnum : isLowerAlnum a = true := by
        rcases hall a (by simp) with h' | h'
        · exact h'
        · exact absurd h' hne
      have hbeq : (a == '-') = false := by
        simpa using hne
      constructor
      · show (if a == '-' then slugAux true rest
          else isLowerAlnum a && slugAux false rest) = true
        rw [if_neg (by simp [hbeq])]
        simp [halnum, hrest.1]
      · show (isLowerAlnum a && slugAux false rest) = true
        simp [halnum, hrest.1]
    by_cases ha : a = '-'
    · subst ha
      constructor
      · show (if ('-' : Char) == '-' then slugAux true rest
          else isLowerAlnum '-' && slugAux false rest) = true
        rw [if_pos (by simp)]
        cases rest with
        | nil => exact absurd rfl (hlast '-' rfl)
        | cons b r =>
          have hb : b ≠ '-' := by
            rcases hadj.1 with h' | h'
            · exact absurd rfl h'
            · exact h'
          exact hrest.2 b rfl hb
      · intro c0 hc0 hne
        simp at hc0
        exact absurd hc0.symm hne
    · exact ⟨(hstep ha).1, fun _ _ _ => (hstep ha).2⟩

theorem space_not_alnum : ∀ c, jsIsSpace c = true → isLowerAlnum c = false := by
  intro c hc
  cases hl : isLowerAlnum c
  · rfl
  · rw [isLowerAlnum_not_space hl] at hc
    exact absurd hc (by simp)

theorem hyphen_not_alnum : ∀ c : Char, (c == '-') = true → isLowerAlnum c = false := by
  intro c hc
  have : c = '-' := by simpa using hc
  subst this
  rfl

/-! ### Invariants of `sanitizeEpicName` output -/

theorem sanitize_chars (s : String) :
    ∀ c ∈ (sanitizeEpicName s).data, isLowerAlnum c = true ∨ c = '-' := by
  intro c hc
  rw [show (sanitizeEpicName s).data
      = dropTrailingHyphen (dropLeadingHyphen (
          collapseRuns (fun c => c == '-') '-' (
          collapseRuns jsIsSpace '-' (
          (jsTrim (s.data.map jsToLowerChar)).filter keepChar)))) from rfl] at hc
  have hc2 := dropLeadingHyphen_mem c (dropTrailingHyphen_mem _ c hc)
  rcases mem_collapseRuns _ '-' _ c hc2 with h | h
  · exact Or.inr h
  · rcases mem_collapseRuns jsIsSpace '-' _ c h.1 with h' | h'
    · exact Or.inr h'
    · have hk := (List.mem_filter.mp h'.1).2
      rcases keepChar_cases hk with hcc | hcc | hcc
      · exact Or.inl hcc
      · exact Or.inr hcc
      · rw [h'.2] at hcc
        exact absurd hcc (by simp)

theorem sanitize_noAdj (s : String) : noAdj (sanitizeEpicName s).data := by
  rw [show (sanitizeEpicName s).data
      = dropTrailingHyphen (dropLeadingHyphen (
          collapseRuns (fun c => c == '-') '-' (
          collapseRuns jsIsSpace '-' (
          (jsTrim (s.data.map jsToLowerChar)).filter keepChar)))) from rfl]
  exact dropTrailingHyphen_noAdj _
    (dropLeadingHyphen_noAdj (noAdj_collapseHyphens _))

theorem sanitize_head (s : String) :
    ∀ c, (sanitizeEpicName s).data.head? = some c → c ≠ '-' := by
  intro c hc
  rw [show (sanitizeEpicName s).data
      = dropTrailingHyphen (dropLeadingHyphen (
          collapseRuns (fun c => c == '-') '-' (
          collapseRuns jsIsSpace '-' (
          (jsTrim (s.data.map jsToLowerChar)).filter keepChar)))) from rfl] at hc
  set M := dropLeadingHyphen (collapseRuns (fun c => c == '-') '-' (
    collapseRuns jsIsSpace '-' ((jsTrim (s.data.map jsToLowerChar)).filter keepChar)))
    with hM
  have hMhead : ∀ c0, M.head? = some c0 → c0 ≠ '-' :=
    dropLeadingHyphen_head (noAdj_collapseHyphens _)
  cases hMc : M with
  | nil =>
    rw [hMc] at hc
    simp [dropTrailingHyphen] at hc
  | cons a rest =>
    rw [hMc] at hc
    rcases dropTrailingHyphen_cons_shape a rest with hsh | ⟨t, ht⟩
    · rw [hsh] at hc
      simp at hc
    · rw [ht] at hc
      simp only [List.head?_cons, Option.some.injEq] at hc
      exact hc ▸ hMhead a (by rw [hMc]; rfl)

theorem sanitize_last (s : String) :
    ∀ c, (sanitizeEpicName s).data.getLast? = some c → c ≠ '-' := by
  intro c hc
  rw [show (sanitizeEpicName s).data
      = dropTrailingHyphen (dropLeadingHyphen (
          collapseRuns (fun c => c == '-') '-' (
          collapseRuns jsIsSpace '-' (
          (jsTrim (s.data.map jsToLowerChar)).filter keepChar)))) from rfl] at hc
  exact dropTrailingHyphen_getLast _
    (dropLeadingHyphen_noAdj (noAdj_collapseHyphens _)) c hc

theorem sanitize_matchesSlug (s : String)
    (hne : (sanitizeEpicName s).data ≠ []) :
    matchesSlug (sanitizeEpicName s) = true := by
  cases hd : (sanitizeEpicName s).data with
  | nil => exact absurd hd hne
  | cons c0 rest =>
    have hinv := slugAux_of_invariants (sanitizeEpicName s).data
      (sanitize_chars s) (sanitize_noAdj s) (sanitize_last s)
    have hc0 : (sanitizeEpicName s).data.head? = some c0 := by rw [hd]; rfl
    exact hinv.2 c0 hc0 (sanitize_head s c0 hc0)

theorem alnumCount_le_sanitize_length (s : String) :
    alnumCount s ≤ (sanitizeEpicName s).length := by
  have h0 : alnumCount s ≤ (s.data.map jsToLowerChar).countP isLowerAlnum := by
    rw [List.countP_map]
    exact List.countP_mono_left (fun c _ hc => by
      simpa using jsToLowerChar_alnum (by simpa using hc))
  have hsan : (sanitizeEpicName s).data.countP isLowerAlnum
      = (s.data.map jsToLowerChar).countP isLowerAlnum := by
    rw [show (sanitizeEpicName s).data
        = dropTrailingHyphen (dropLeadingHyphen (
            collapseRuns (fun c => c == '-') '-' (
            collapseRuns jsIsSpace '-' (
            (jsTrim (s.data.map jsToLowerChar)).filter keepChar)))) from rfl]
    rw [countP_dropTrailingHyphen _ (by rfl),
      countP_dropLeadingHyphen _ (by rfl),
      countP_collapseRuns isLowerAlnum _ '-' (by rfl) hyphen_not_alnum,
      countP_collapseRuns isLowerAlnum jsIsSpace '-' (by rfl) space_not_alnum,
      countP_filter_keep isLowerAlnum keepChar (fun c hc => keepChar_of_alnum hc),
      countP_jsTrim isLowerAlnum space_not_alnum]
  calc alnumCount s ≤ (s.data.map jsToLowerChar).countP isLowerAlnum := h0
  _ = (sanitizeEpicName s).data.countP isLowerAlnum := hsan.symm
  _ ≤ (sanitizeEpicName s).data.length := List.countP_le_length _
  _ = (sanitizeEpicName s).length := rfl

/-! ### Claim theorems for C4 -/

/-- C4 counterexample: both directions of the claim fail on the code.
The input "a b" has only two alphanumeric characters, yet
`validateEpicName(sanitizeEpicName("a b"))` succeeds (it sanitizes to the
3-character slug "a-b"); and a run of 51 letters has at least three
alphanumeric characters, yet validation fails (the 51-character slug
exceeds the maximum length 50). -/
theorem c4_slug_counterexample :
    (alnumCount "a b" = 2 ∧ validateEpicName (sanitizeEpicName "a b") = true) ∧
      (3 ≤ alnumCount (String.mk (List.replicate 51 'a')) ∧
        validateEpicName (sanitizeEpicName (String.mk (List.replicate 51 'a'))) = false) := by
  refine ⟨⟨?_, ?_⟩, ⟨?_, ?_⟩⟩ <;> decide

/-- C4 (amended). `validateEpicName(sanitizeEpicName(s))` never throws and
succeeds exactly when the sanitized slug has length between 3 and 50;
whenever `s` contains at least 3 alphanumeric characters the sanitized
slug has length at least 3 (so sanitization of such an `s` fails
validation only by exceeding the maximum length 50). -/
theorem c4_slug_invariant (s : String) :
    (validateEpicName (sanitizeEpicName s) = true ↔
      3 ≤ (sanitizeEpicName s).length ∧ (sanitizeEpicName s).length ≤ 50) ∧
    (3 ≤ alnumCount s → 3 ≤ (sanitizeEpicName s).length) := by
  refine ⟨⟨?_, ?_⟩, fun h => le_trans h (alnumCount_le_sanitize_length s)⟩
  · intro hv
    simp only [validateEpicName, Bool.and_eq_true, decide_eq_true_eq] at hv
    exact ⟨hv.1.1, hv.1.2⟩
  · rintro ⟨h3, h50⟩
    have hne : (sanitizeEpicName s).data ≠ [] := by
      intro hnil
      have hz : (sanitizeEpicName s).length = 0 := by
        show (sanitizeEpicName s).data.length = 0
        rw [hnil]
        rfl
      omega
    simp only [validateEpicName, Bool.and_eq_true, decide_eq_true_eq]
    exact ⟨⟨h3, h50⟩, sanitize_matchesSlug s hne⟩

theorem c4_slug_invariant_witness :
    validateEpicName (sanitizeEpicName "My Epic Name!") = true :=
  (c4_slug_invariant "My Epic Name!").1.mpr ⟨by decide, by decide⟩

/-! ## Cycle detection (`hasCircularDependency` in `file-ops.ts`)

The `Map<string, string[]>` of task dependencies is an association list;
`mapGet` is `allTasks.get(current) || []`. The recursive `checkCircular`
with its mutable visited set is embedded with explicit fuel (the source
recursion terminates because the visited set only grows; fuel large
enough for that argument is supplied at the call site and the correctness
theorem shows the result is the reachability predicate, independent of
fuel). The sequential `for` loop over dependencies with early `return
true` is a left fold carrying the (found, visited) pair. -/

def mapGet (m : List (String × List String)) (k : String) : List String :=
  match m.find? (fun p => p.1 == k) with
  | some p => p.2
  | none => []

/-- `file-ops.ts` lines 911-930: `checkCircular(current)`; returns the
result together with the visited set it leaves behind. -/
def checkCircular (tn : String) (m : List (String × List String)) :
    Nat → List String → String → Bool × List String
  | 0, visited, _ => (false, visited)
  | fuel + 1, visited, current =>
    if current = tn then (true, visited)
    else if visited.contains current then (false, visited)
    else (mapGet m current).foldl
      (fun acc d => if acc.1 then acc else checkCircular tn m fuel acc.2 d)
      (false, current :: visited)

/-- Fuel sufficient to explore every node that can ever be visited: the
direct dependencies plus every id occurring in a `depends_on` value. -/
def fuelFor (dependencies : List String) (m : List (String × List String)) : Nat :=
  (dependencies ++ (m.map Prod.snd).flatten).length + 1

/-- `file-ops.ts` lines 904-940: for each direct dependency clear the
visited set and run `checkCircular`; true as soon as one run finds the
task. -/
def hasCircularDependency (taskNumber : String) (dependencies : List String)
    (allTasks : List (String × List String)) : Bool :=
  dependencies.any (fun dep =>
    (checkCircular taskNumber allTasks (fuelFor dependencies allTasks) [] dep).1)

/-- Reachability along `depends_on` edges of the dependency map
(reflexive-transitive closure of the edge relation). -/
inductive Reach (m : List (String × List String)) : String → String → Prop
  | refl (x : String) : Reach m x x
  | step {x y z : String} : y ∈ mapGet m x → Reach m y z → Reach m x z

/-! ### Soundness: a `true` answer exhibits a path -/

theorem foldl_check_stay_true (tn : String) (m : List (String × List String))
    (fuel : Nat) :
    ∀ (ds : List String) (x : List String),
      List.foldl
        (fun acc d => if acc.1 then acc else checkCircular tn m fuel acc.2 d)
        (true, x) ds = (true, x) := by
  intro ds
  induction ds with
  | nil => intro x; rfl
  | cons d rest ih => intro x; exact ih x

theorem foldl_check_true_origin (tn : String) (m : List (String × List String))
    (fuel : Nat) :
    ∀ (ds : List String) (acc : Bool × List String),
      (List.foldl
        (fun acc d => if acc.1 then acc else checkCircular tn m fuel acc.2 d)
        acc ds).1 = true →
      acc.1 = true ∨ ∃ d ∈ ds, ∃ w, (checkCircular tn m fuel w d).1 = true := by
  intro ds
  induction ds with
  | nil => intro acc h; exact Or.inl h
  | cons d rest ih =>
    intro acc h
    rw [List.foldl_cons] at h
    rcases ih _ h with h' | ⟨e, he, w, hw⟩
    · by_cases hacc : acc.1 = true
      · exact Or.inl hacc
      · rw [if_neg (by simpa using hacc)] at h'
        exact Or.inr ⟨d, by simp, acc.2, h'⟩
    · exact Or.inr ⟨e, by simp [he], w, hw⟩

theorem check_sound (tn : String) (m : List (String × List String)) :
    ∀ (fuel : Nat) (v : List String) (c : String),
      (checkCircular tn m fuel v c).1 = true → Reach m c tn := by
  intro fuel
  induction fuel with
  | zero => intro v c h; simp [checkCircular] at h
  | succ fuel ih =>
    intro v c h
    simp only [checkCircular] at h
    by_cases h1 : c = tn
    · subst h1; exact Reach.refl c
    · rw [if_neg h1] at h
      by_cases h2 : v.contains c = true
      · rw [if_pos h2] at h
        simp at h
      · rw [if_neg h2] at h
        rcases foldl_check_true_origin tn m fuel _ _ h with h' | ⟨d, hd, w, hw⟩
        · simp at h'
        · exact Reach.step hd (ih w d hw)

/-! ### Completeness: a `false` answer leaves a closed visited set -/

theorem foldl_check_cons_false (tn : String) (m : List (String × List String))
    (fuel : Nat) (w : List String) (d : String) (rest : List String) :
    List.foldl (fun acc x => if acc.1 then acc else checkCircular tn m fuel acc.2 x)
      (false, w) (d :: rest)
    = List.foldl (fun acc x => if acc.1 then acc else checkCircular tn m fuel acc.2 x)
      (checkCircular tn m fuel w d) rest := rfl

/-- After `checkCircular` returns `false`, the visited set it produced
contains the start node, still avoids the target, stays inside the
candidate set `S`, and every freshly visited node has all its successors
visited. -/
theorem check_false_spec (tn : String) (m : List (String × List String))
    (S : Finset String) (hS : ∀ x y, y ∈ mapGet m x → y ∈ S) :
    ∀ (fuel : Nat) (v : List String) (c : String) (v' : List String),
      (S \ v.toFinset).card < fuel →
      c ∈ S →
      tn ∉ v →
      checkCircular tn m fuel v c = (false, v') →
      (∀ x ∈ v, x ∈ v') ∧ c ∈ v' ∧ tn ∉ v' ∧
        (∀ x ∈ v', x ∈ v ∨ x ∈ S) ∧
        (∀ x ∈ v', x ∉ v → ∀ y ∈ mapGet m x, y ∈ v') := by
  intro fuel
  induction fuel with
  | zero =>
    intro v c v' hcard _ _ _
    exact absurd hcard (Nat.not_lt_zero _)
  | succ fuel ih =>
    intro v c v' hcard hcS htn hrun
    simp only [checkCircular] at hrun
    by_cases h1 : c = tn
    · rw [if_pos h1] at hrun
      simp at hrun
    · rw [if_neg h1] at hrun
      by_cases h2 : v.contains c = true
      · rw [if_pos h2] at hrun
        have hveq : v = v' := by
          injection hrun
        subst hveq
        have hcmem : c ∈ v := by simpa using h2
        exact ⟨fun x hx => hx, hcmem, htn,
          fun x hx => Or.inl hx, fun x hx hnx => absurd hx hnx⟩
      · rw [if_neg h2] at hrun
        have hcv : c ∉ v := by simpa using h2
        -- every visited list reached during the fold contains `c :: v`,
        -- so the candidate budget strictly decreased
        have hbudget : ∀ w : List String, (∀ x ∈ c :: v, x ∈ w) →
            (S \ w.toFinset).card < fuel := by
          intro w hw
          have hsub : (c :: v).toFinset ⊆ w.toFinset := by
            intro x hx
            rw [List.mem_toFinset] at hx ⊢
            exact hw x hx
          have h1' : S \ w.toFinset ⊆ S \ (c :: v).toFinset :=
            Finset.sdiff_subset_sdiff (Finset.Subset.refl S) hsub
          have h2' : (S \ (c :: v).toFinset).card < fuel := by
            have hc_in : c ∈ S \ v.toFinset :=
              Finset.mem_sdiff.mpr ⟨hcS, by simpa using hcv⟩
            have heq : S \ (c :: v).toFinset = (S \ v.toFinset).erase c := by
              rw [List.toFinset_cons, Finset.sdiff_insert]
            rw [heq, Finset.card_erase_of_mem hc_in]
            have hpos : 0 < (S \ v.toFinset).card := Finset.card_pos.mpr ⟨c, hc_in⟩
            omega
          exact lt_of_le_of_lt (Finset.card_le_card h1') h2'
        have hfold : ∀ (ds : List String), (∀ d ∈ ds, d ∈ S) →
            ∀ (w v'' : List String),
              tn ∉ w →
              (∀ x ∈ c :: v, x ∈ w) →
              (∀ x ∈ w, x ∈ v ∨ x ∈ S) →
              (∀ x ∈ w, x ∉ v → x ≠ c → ∀ y ∈ mapGet m x, y ∈ w) →
              List.foldl
                (fun acc d => if acc.1 then acc else checkCircular tn m fuel acc.2 d)
                (false, w) ds = (false, v'') →
              (∀ x ∈ w, x ∈ v'') ∧ tn ∉ v'' ∧ (∀ d ∈ ds, d ∈ v'') ∧
                (∀ x ∈ v'', x ∈ v ∨ x ∈ S) ∧
                (∀ x ∈ v'', x ∉ v → x ≠ c → ∀ y ∈ mapGet m x, y ∈ v'') := by
          intro ds
          induction ds with
          | nil =>
            intro _ w v'' htnw _ hrange hclose hfl
            simp only [List.foldl_nil] at hfl
            injection hfl with _ hw
            subst hw
            exact ⟨fun x hx => hx, htnw, by simp, hrange, hclose⟩
          | cons d rest ihds =>
            intro hds w v'' htnw hsub hrange hclose hfl
            rw [foldl_check_cons_false] at hfl
            cases hres : checkCircular tn m fuel w d with
            | mk b w1 =>
              rw [hres] at hfl
              cases b with
              | true =>
                rw [foldl_check_stay_true] at hfl
                simp at hfl
              | false =>
                obtain ⟨hw_sub, hd_in, htn1, hrange1, hclose1⟩ :=
                  ih w d w1 (hbudget w hsub) (hds d (by simp)) htnw hres
                have hsub1 : ∀ x ∈ c :: v, x ∈ w1 := fun x hx => hw_sub x (hsub x hx)
                have hrange1' : ∀ x ∈ w1, x ∈ v ∨ x ∈ S := by
                  intro x hx
                  rcases hrange1 x hx with hxw | hxS
                  · exact hrange x hxw
                  · exact Or.inr hxS
                have hclose1' : ∀ x ∈ w1, x ∉ v → x ≠ c →
                    ∀ y ∈ mapGet m x, y ∈ w1 := by
                  intro x hx hxv hxc y hy
                  by_cases hxw : x ∈ w
                  · exact hw_sub y (hclose x hxw hxv hxc y hy)
                  · exact hclose1 x hx hxw y hy
                obtain ⟨hw1_sub, htn2, hrest, hrange2, hclose2⟩ :=
                  ihds (fun e he => hds e (List.mem_cons_of_mem d he)) w1 v''
                    htn1 hsub1 hrange1' hclose1' hfl
                refine ⟨fun x hx => hw1_sub x (hw_sub x hx), htn2, ?_, hrange2, hclose2⟩
                intro e he
                rcases List.mem_cons.mp he with he | he
                · subst he
                  exact hw1_sub e hd_in
                · exact hrest e he
        have htncv : tn ∉ c :: v := by
          intro hmem
          rcases List.mem_cons.mp hmem with h | h
          · exact h1 h.symm
          · exact htn h
        obtain ⟨hcv_sub, htn', hds_in, hrange', hclose'⟩ :=
          hfold (mapGet m c) (fun d hd => hS c d hd) (c :: v) v' htncv
            (fun x hx => hx)
            (by
              intro x hx
              rcases List.mem_cons.mp hx with h | h
              · exact Or.inr (h ▸ hcS)
              · exact Or.inl h)
            (by
              intro x hx hxv hxc
              rcases List.mem_cons.mp hx with h | h
              · exact absurd h hxc
              · exact absurd h hxv)
            hrun
        refine ⟨fun x hx => hcv_sub x (List.mem_cons_of_mem c hx),
          hcv_sub c (by simp), htn', hrange', ?_⟩
        intro x hx hxv y hy
        by_cases hxc : x = c
        · subst hxc
          exact hds_in y hy
        · exact hclose' x hx hxv hxc y hy

/-- Reachability cannot escape a successor-closed visited set. -/
theorem reach_in_closed (m : List (String × List String)) :
    ∀ {x z : String}, Reach m x z →
      ∀ (V : List String), (∀ a ∈ V, ∀ y ∈ mapGet m a, y ∈ V) → x ∈ V → z ∈ V := by
  intro x z hreach
  induction hreach with
  | refl a => intro V _ hx; exact hx
  | step hy _ ihr =>
    intro V hclosed hx
    exact ihr V hclosed (hclosed _ hx _ hy)

theorem mem_mapGet_values {m : List (String × List String)} {x y : String}
    (h : y ∈ mapGet m x) : y ∈ (m.map Prod.snd).flatten := by
  rw [mapGet] at h
  cases hf : m.find? (fun p => p.1 == x) with
  | none => rw [hf] at h; simp at h
  | some p =>
    rw [hf] at h
    have hp := List.mem_of_find?_eq_some hf
    rw [List.mem_flatten]
    exact ⟨p.2, List.mem_map.mpr ⟨p, hp, rfl⟩, h⟩

/-! ### Claim theorem for C2 -/

/-- C2. `hasCircularDependency(T, D, allTasks)` returns true iff `T` is
reachable from some member of `D` along `depends_on` edges of the map. -/
theorem c2_cycle_detection (tn : String) (deps : List String)
    (m : List (String × List String)) :
    hasCircularDependency tn deps m = true ↔ ∃ d ∈ deps, Reach m d tn := by
  constructor
  · intro h
    simp only [hasCircularDependency, List.any_eq_true] at h
    obtain ⟨d, hd, hch⟩ := h
    exact ⟨d, hd, check_sound tn m _ _ d hch⟩
  · rintro ⟨d, hd, hreach⟩
    simp only [hasCircularDependency, List.any_eq_true]
    refine ⟨d, hd, ?_⟩
    by_contra hfalse
    cases hres : checkCircular tn m (fuelFor deps m) [] d with
    | mk b v' =>
      cases b with
      | true => exact hfalse (by rw [hres])
      | false =>
        have hS : ∀ x y, y ∈ mapGet m x → y ∈ (deps ++ (m.map Prod.snd).flatten).toFinset := by
          intro x y hy
          rw [List.mem_toFinset, List.mem_append]
          exact Or.inr (mem_mapGet_values hy)
        have hcard : ((deps ++ (m.map Prod.snd).flatten).toFinset \
            ([] : List String).toFinset).card < fuelFor deps m := by
          rw [show ([] : List String).toFinset = (∅ : Finset String) from rfl,
            Finset.sdiff_empty, fuelFor]
          have := List.toFinset_card_le (deps ++ (m.map Prod.snd).flatten)
          omega
        have hdS : d ∈ (deps ++ (m.map Prod.snd).flatten).toFinset := by
          rw [List.mem_toFinset, List.mem_append]
          exact Or.inl hd
        obtain ⟨_, hdv, htnv, _, hclosed⟩ :=
          check_false_spec tn m _ hS (fuelFor deps m) [] d v' hcard hdS
            (by simp) hres
        have hclosed' : ∀ a ∈ v', ∀ y ∈ mapGet m a, y ∈ v' := by
          intro a ha y hy
          exact hclosed a ha (by simp) y hy
        exact htnv (reach_in_closed m hreach v' hclosed' hdv)

/-- C2 witness: the two-node cycle 001 → 002 → 001 is detected; concretely
`hasCircularDependency "001" ["002"] [("002", ["001"])] = true` via the
reachability path 002 → 001. -/
theorem c2_cycle_detection_witness :
    hasCircularDependency "001" ["002"] [("002", ["001"])] = true :=
  (c2_cycle_detection "001" ["002"] [("002", ["001"])]).mpr
    ⟨"002", by simp, Reach.step (by decide) (Reach.refl "001")⟩

/-! ## Metadata codec (`parseFrontmatter` / `stringifyFrontmatter` in
`frontmatter.ts`)

`frontmatter.ts` delegates the YAML work to the vendored `gray-matter`
library, whose code is not part of this repository's sources. Modelled
from the spec: the codec splits a leading structured header block —
delimited by `---` lines, one `key: value` line per field — from the
free-form body, handles exactly the header-safe values (strings, numbers,
booleans, string arrays), returns an empty header when no block is
present, and `encode` is a left inverse of `decode`. Strings (keys,
string values and array elements) are rendered quoted with escapes so
that every header-safe value round-trips. -/

inductive FmValue
  | str (s : String)
  | num (n : Int)
  | bool (b : Bool)
  | strList (xs : List String)
deriving DecidableEq

/-- Escape one character for a quoted string. -/
def escChar (c : Char) : List Char :=
  if c = '\\' then ['\\', '\\']
  else if c = '"' then ['\\', '"']
  else if c = '\n' then ['\\', 'n']
  else [c]

def escape : List Char → List Char
  | [] => []
  | c :: r => escChar c ++ escape r

def unescChar (c : Char) : Char := if c = 'n' then '\n' else c

/-- Quoted rendering of a raw character list. -/
def renderQ (s : List Char) : List Char :=
  '"' :: (escape s ++ ['"'])

/-- Parse the inside of a quoted string (after the opening quote). -/
def parseQAux : List Char → Option (List Char × List Char)
  | [] => none
  | c :: rest =>
    if c = '"' then some ([], rest)
    else if c = '\\' then
      match rest with
      | [] => none
      | e :: rest' =>
        match parseQAux rest' with
        | some (s, r) => some (unescChar e :: s, r)
        | none => none
    else
      match parseQAux rest with
      | some (s, r) => some (c :: s, r)
      | none => none

/-- Parse a quoted string (opening quote included). -/
def parseQuoted : List Char → Option (List Char × List Char)
  | c :: rest => if c = '"' then parseQAux rest else none
  | [] => none

/-- Decimal rendering of an integer. -/
def intRender (n : Int) : List Char :=
  if n < 0 then '-' :: natDigits n.natAbs else natDigits n.toNat

/-- Rendering of a string-array value as an inline list. -/
def renderElems : List String → List Char
  | [] => [']']
  | [x] => renderQ x.data ++ [']']
  | x :: y :: rest => renderQ x.data ++ ',' :: ' ' :: renderElems (y :: rest)

/-- Rendering of one header-safe value. -/
def renderValue : FmValue → List Char
  | .str s => renderQ s.data
  | .num n => intRender n
  | .bool true => "true".data
  | .bool false => "false".data
  | .strList xs => '[' :: renderElems xs

/-- Parse an inline string array (after the opening bracket). -/
def parseElems : Nat → List Char → Option (List String × List Char)
  | 0, _ => none
  | fuel + 1, cs =>
    match cs with
    | [] => none
    | c :: rest =>
      if c = ']' then some ([], rest)
      else
        match parseQuoted (c :: rest) with
        | some (s, r2) =>
          match r2 with
          | ']' :: r => some ([String.mk s], r)
          | ',' :: ' ' :: r =>
            match parseElems fuel r with
            | some (xs, r') => some (String.mk s :: xs, r')
            | none => none
          | _ => none
        | none => none

/-- Interpret an unquoted scalar token: boolean literal or decimal
integer. -/
def parseScalar (tok : List Char) : Option FmValue :=
  if tok = "true".data then some (.bool true)
  else if tok = "false".data then some (.bool false)
  else if tok.head? = some '-' then
    (if tok.tail ≠ [] ∧ tok.tail.all Char.isDigit then
      some (.num (-(digitsVal tok.tail : Int)))
    else none)
  else if tok ≠ [] ∧ tok.all Char.isDigit then
    some (.num ((digitsVal tok : Int)))
  else none

/-- Parse one header value followed by its terminating newline; returns
the remainder after the newline. -/
def parseValueNL (cs : List Char) : Option (FmValue × List Char) :=
  match cs with
  | [] => none
  | c :: rest =>
    if c = '"' then
      match parseQuoted (c :: rest) with
      | some (s, r1) =>
        match r1 with
        | '\n' :: r => some (.str (String.mk s), r)
        | _ => none
      | none => none
    else if c = '[' then
      match parseElems (rest.length + 1) rest with
      | some (xs, r1) =>
        match r1 with
        | '\n' :: r => some (.strList xs, r)
        | _ => none
      | none => none
    else
      match (c :: rest).dropWhile (fun a => !(a == '\n')) with
      | '\n' :: r =>
        match parseScalar ((c :: rest).takeWhile (fun a => !(a == '\n'))) with
        | some v => some (v, r)
        | none => none
      | _ => none

/-- The `---` delimiter line at the front of a character list. -/
def stripSep (cs : List Char) : Option (List Char) :=
  match cs with
  | a :: b :: c :: d :: rest =>
    if a = '-' ∧ b = '-' ∧ c = '-' ∧ d = '\n' then some rest else none
  | _ => none

/-- One rendered `key: value` header line. -/
def renderHeader : List (String × FmValue) → List Char
  | [] => []
  | (k, v) :: rest =>
    renderQ k.data ++ ':' :: ' ' :: (renderValue v ++ '\n' :: renderHeader rest)

/-- Parse header lines until the closing `---` delimiter. -/
def parseHeaderLines : Nat → List Char → Option (List (String × FmValue) × List Char)
  | 0, _ => none
  | fuel + 1, cs =>
    match stripSep cs with
    | some rest => some ([], rest)
    | none =>
      match parseQuoted cs with
      | some (k, r1) =>
        match r1 with
        | ':' :: ' ' :: r2 =>
          match parseValueNL r2 with
          | some (v, r3) =>
            match parseHeaderLines fuel r3 with
            | some (h, body) => some ((String.mk k, v) :: h, body)
            | none => none
          | none => none
        | _ => none
      | none => none

/-- Modelled from the spec: `stringifyFrontmatter(data, content)`
(`frontmatter.ts` lines 172-174, via `matter.stringify`): delimiter,
header lines, delimiter, body. -/
def stringifyFrontmatter (h : List (String × FmValue)) (body : String) : String :=
  String.mk ('-' :: '-' :: '-' :: '\n' ::
    (renderHeader h ++ '-' :: '-' :: '-' :: '\n' :: body.data))

/-- Modelled from the spec: `parseFrontmatter(markdown)` (`frontmatter.ts`
lines 93-102, via `matter`): split the leading header block from the
body; a document with no leading delimiter has an empty header and is all
body; a malformed header block is a parse failure (`none`, the model of a
thrown error). -/
def parseFrontmatter (markdown : String) :
    Option (List (String × FmValue) × String) :=
  match stripSep markdown.data with
  | some rest =>
    match parseHeaderLines (rest.length + 1) rest with
    | some (h, body) => some (h, String.mk body)
    | none => none
  | none => some ([], markdown)

/-! ### Codec round-trip lemmas -/

theorem parseQAux_escape : ∀ (s rest : List Char),
    parseQAux (escape s ++ '"' :: rest) = some (s, rest) := by
  intro s
  induction s with
  | nil =>
    intro rest
    show parseQAux ('"' :: rest) = some ([], rest)
    rw [parseQAux.eq_def]
    simp
  | cons c s' ih =>
    intro rest
    by_cases h2 : c = '"'
    · subst h2
      have e1 : escape ('"' :: s') ++ '"' :: rest
          = '\\' :: '"' :: (escape s' ++ '"' :: rest) := by
        simp [escape, escChar]
      rw [e1, parseQAux.eq_def]
      simp +decide [ih rest, unescChar]
    · by_cases h1 : c = '\\'
      · subst h1
        have e1 : escape ('\\' :: s') ++ '"' :: rest
            = '\\' :: '\\' :: (escape s' ++ '"' :: rest) := by
          simp [escape, escChar]
        rw [e1, parseQAux.eq_def]
        simp +decide [ih rest, unescChar]
      · by_cases h3 : c = '\n'
        · subst h3
          have e1 : escape ('\n' :: s') ++ '"' :: rest
              = '\\' :: 'n' :: (escape s' ++ '"' :: rest) := by
            simp [escape, escChar]
          rw [e1, parseQAux.eq_def]
          simp +decide [ih rest, unescChar]
        · have e1 : escape (c :: s') ++ '"' :: rest
              = c :: (escape s' ++ '"' :: rest) := by
            simp [escape, escChar, h1, h2, h3]
          rw [e1, parseQAux.eq_def]
          simp [h1, h2, ih rest]

theorem parseQuoted_renderQ (s rest : List Char) :
    parseQuoted (renderQ s ++ rest) = some (s, rest) := by
  have e1 : renderQ s ++ rest = '"' :: (escape s ++ '"' :: rest) := by
    simp [renderQ]
  rw [e1, parseQuoted.eq_def]
  simp [parseQAux_escape]

theorem natDigits_ne_nil (n : Nat) : natDigits n ≠ [] := by
  rw [natDigits]
  simp only [ne_eq, List.reverse_eq_nil_iff]
  show ¬ natDigitsRevAux (n + 1) n = []
  rw [natDigitsRevAux]
  by_cases h : n < 10
  · simp [h]
  · simp [h]

theorem natDigits_all_digit (n : Nat) : ∀ c ∈ natDigits n, c.isDigit = true := by
  intro c hc
  rw [natDigits, List.mem_reverse] at hc
  exact natDigitsRevAux_isDigit _ _ c hc

theorem digit_ne_chars {c : Char} (h : c.isDigit = true) :
    c ≠ '"' ∧ c ≠ '[' ∧ c ≠ '-' ∧ c ≠ '\n' := by
  rw [Char.isDigit] at h
  simp only [decide_eq_true_eq, Bool.and_eq_true, decide_eq_true_eq] at h
  refine ⟨?_, ?_, ?_, ?_⟩ <;> (intro hc; subst hc; revert h; decide)

theorem all_digit_ne_bool_literals {l : List Char}
    (h : ∀ c ∈ l, c.isDigit = true) :
    l ≠ "true".data ∧ l ≠ "false".data := by
  constructor
  · intro he
    have : ('t' : Char).isDigit = true := h 't' (by rw [he]; decide)
    exact absurd this (by decide)
  · intro he
    have : ('f' : Char).isDigit = true := h 'f' (by rw [he]; decide)
    exact absurd this (by decide)

theorem takeWhile_notNL {l : List Char} (h : ∀ c ∈ l, c ≠ '\n') (rest : List Char) :
    (l ++ '\n' :: rest).takeWhile (fun a => !(a == '\n')) = l := by
  induction l with
  | nil => simp [List.takeWhile_cons]
  | cons c r ih =>
    rw [List.cons_append, List.takeWhile_cons]
    have hc : (!(c == '\n')) = true := by
      simp [h c (by simp)]
    rw [hc]
    simp only [if_true]
    rw [ih (fun x hx => h x (by simp [hx]))]

theorem dropWhile_notNL {l : List Char} (h : ∀ c ∈ l, c ≠ '\n') (rest : List Char) :
    (l ++ '\n' :: rest).dropWhile (fun a => !(a == '\n')) = '\n' :: rest := by
  induction l with
  | nil => simp [List.dropWhile_cons]
  | cons c r ih =>
    rw [List.cons_append, List.dropWhile_cons]
    have hc : (!(c == '\n')) = true := by
      simp [h c (by simp)]
    rw [hc]
    simp only [if_true]
    exact ih (fun x hx => h x (by simp [hx]))

theorem parseScalar_intRender (n : Int) : parseScalar (intRender n) = some (.num n) := by
  rw [intRender]
  by_cases hn : n < 0
  · rw [if_pos hn]
    have hdig := natDigits_all_digit n.natAbs
    have hne := natDigits_ne_nil n.natAbs
    rw [parseScalar]
    rw [if_neg (by
      intro he
      have ht : ('t' : Char).isDigit = true := by
        have hm : ('t' : Char) ∈ '-' :: natDigits n.natAbs := by rw [he]; decide
        rcases List.mem_cons.mp hm with h' | h'
        · exact absurd h'.symm (by decide)
        · exact hdig _ h'
      exact absurd ht (by decide))]
    rw [if_neg (by
      intro he
      have hf : ('f' : Char).isDigit = true := by
        have hm : ('f' : Char) ∈ '-' :: natDigits n.natAbs := by rw [he]; decide
        rcases List.mem_cons.mp hm with h' | h'
        · exact absurd h'.symm (by decide)
        · exact hdig _ h'
      exact absurd hf (by decide))]
    rw [if_pos (by simp)]
    rw [List.tail_cons]
    rw [if_pos ⟨hne, by
      rw [List.all_eq_true]
      intro c hc
      exact hdig c hc⟩]
    rw [digitsVal_natDigits]
    have he : ((n.natAbs : Nat) : Int) = -n := by omega
    rw [he]
    simp
  · rw [if_neg hn]
    have hdig := natDigits_all_digit n.toNat
    have hne := natDigits_ne_nil n.toNat
    have hlit := all_digit_ne_bool_literals hdig
    rw [parseScalar, if_neg hlit.1, if_neg hlit.2]
    rw [if_neg (by
      intro hh
      cases hd : natDigits n.toNat with
      | nil => exact absurd hd hne
      | cons c ds =>
        rw [hd] at hh
        simp only [List.head?_cons, Option.some.injEq] at hh
        have hcd : c.isDigit = true := by
          apply hdig
          rw [hd]
          simp
        exact (digit_ne_chars hcd).2.2.1 hh)]
    rw [if_pos ⟨hne, by
      rw [List.all_eq_true]
      intro x hx
      exact hdig x hx⟩]
    rw [digitsVal_natDigits]
    have he : ((n.toNat : Nat) : Int) = n := by omega
    rw [he]

theorem string_eta (s : String) : String.mk s.data = s := rfl

theorem renderQ_length (s : List Char) : 2 ≤ (renderQ s).length := by
  simp [renderQ]

theorem renderElems_length : ∀ xs : List String, xs.length ≤ (renderElems xs).length := by
  intro xs
  induction xs with
  | nil => simp [renderElems]
  | cons x rest ih =>
    cases rest with
    | nil => simp [renderElems]
    | cons y rest' =>
      have h2 := renderQ_length x.data
      simp only [renderElems, List.length_append, List.length_cons] at ih ⊢
      omega

theorem parseElems_render : ∀ (xs : List String) (fuel : Nat) (tail : List Char),
    xs.length < fuel →
    parseElems fuel (renderElems xs ++ tail) = some (xs, tail) := by
  intro xs
  induction xs with
  | nil =>
    intro fuel tail hlen
    cases fuel with
    | zero => omega
    | succ f =>
      show parseElems (f + 1) (']' :: tail) = some ([], tail)
      rw [parseElems.eq_def]
      simp
  | cons x rest ih =>
    intro fuel tail hlen
    cases fuel with
    | zero => omega
    | succ f =>
      cases rest with
      | nil =>
        have e1 : renderElems [x] ++ tail
            = '"' :: (escape x.data ++ '"' :: ']' :: tail) := by
          simp [renderElems, renderQ]
        rw [e1, parseElems.eq_def]
        simp +decide [parseQuoted.eq_def, parseQAux_escape, string_eta]
      | cons y rest' =>
        have hlen' : (y :: rest').length < f := by
          simp at hlen ⊢
          omega
        have e1 : renderElems (x :: y :: rest') ++ tail
            = '"' :: (escape x.data ++ '"' :: ',' :: ' ' ::
                (renderElems (y :: rest') ++ tail)) := by
          simp [renderElems, renderQ]
        rw [e1, parseElems.eq_def]
        simp +decide [parseQuoted.eq_def, parseQAux_escape,
          ih f tail hlen', string_eta]

theorem intRender_spec (n : Int) :
    intRender n ≠ [] ∧ (∀ c ∈ intRender n, c ≠ '\n') ∧
      (∀ c, (intRender n).head? = some c → c ≠ '"' ∧ c ≠ '[') := by
  rw [intRender]
  by_cases hn : n < 0
  · rw [if_pos hn]
    refine ⟨by simp, ?_, ?_⟩
    · intro c hc
      rcases List.mem_cons.mp hc with h | h
      · subst h; decide
      · exact (digit_ne_chars (natDigits_all_digit _ c h)).2.2.2
    · intro c hc
      simp only [List.head?_cons, Option.some.injEq] at hc
      subst hc
      exact ⟨by decide, by decide⟩
  · rw [if_neg hn]
    refine ⟨natDigits_ne_nil _, ?_, ?_⟩
    · intro c hc
      exact (digit_ne_chars (natDigits_all_digit _ c hc)).2.2.2
    · intro c hc
      cases hd : natDigits n.toNat with
      | nil => exact absurd hd (natDigits_ne_nil _)
      | cons a tl =>
        rw [hd] at hc
        simp only [List.head?_cons, Option.some.injEq] at hc
        have hmem : c ∈ natDigits n.toNat := by
          rw [hd, ← hc]
          simp
        have hdc := digit_ne_chars (natDigits_all_digit n.toNat c hmem)
        exact ⟨hdc.1, hdc.2.1⟩

/-- Scalar-token path of `parseValueNL`: for a token with no newline, no
quote/bracket head, the value is `parseScalar` of the token. -/
theorem parseValueNL_scalar {l : List Char} (hne : l ≠ [])
    (hnl : ∀ c ∈ l, c ≠ '\n')
    (hhead : ∀ c, l.head? = some c → c ≠ '"' ∧ c ≠ '[')
    (rest : List Char) :
    parseValueNL (l ++ '\n' :: rest)
      = match parseScalar l with
        | some v => some (v, rest)
        | none => none := by
  cases l with
  | nil => exact absurd rfl hne
  | cons c tl =>
    have hc := hhead c rfl
    rw [List.cons_append, parseValueNL.eq_def]
    have e2 : (c :: (tl ++ '\n' :: rest)).dropWhile (fun a => !(a == '\n'))
        = '\n' :: rest := by
      rw [← List.cons_append]
      exact dropWhile_notNL hnl rest
    have e3 : (c :: (tl ++ '\n' :: rest)).takeWhile (fun a => !(a == '\n'))
        = c :: tl := by
      rw [← List.cons_append]
      exact takeWhile_notNL hnl rest
    simp only [if_neg hc.1, if_neg hc.2, e2, e3]

theorem parseValueNL_render (v : FmValue) (rest : List Char) :
    parseValueNL (renderValue v ++ '\n' :: rest) = some (v, rest) := by
  cases v with
  | str s =>
    have e1 : renderValue (.str s) ++ '\n' :: rest
        = '"' :: (escape s.data ++ '"' :: '\n' :: rest) := by
      simp [renderValue, renderQ]
    rw [e1, parseValueNL.eq_def]
    simp +decide [parseQuoted.eq_def, parseQAux_escape, string_eta]
  | num n =>
    obtain ⟨hne, hnl, hhead⟩ := intRender_spec n
    rw [show renderValue (.num n) = intRender n from rfl,
      parseValueNL_scalar hne hnl hhead, parseScalar_intRender]
  | bool b =>
    cases b with
    | true =>
      rw [show renderValue (.bool true) = "true".data from rfl,
        parseValueNL_scalar (by decide) (by decide) (by decide)]
      rw [show parseScalar "true".data = some (.bool true) from by
        rw [parseScalar]; simp]
    | false =>
      rw [show renderValue (.bool false) = "false".data from rfl,
        parseValueNL_scalar (by decide) (by decide) (by decide)]
      rw [show parseScalar "false".data = some (.bool false) from by
        rw [parseScalar]
        rw [if_neg (by decide)]
        simp]
  | strList xs =>
    have e1 : renderValue (.strList xs) ++ '\n' :: rest
        = '[' :: (renderElems xs ++ '\n' :: rest) := by
      simp [renderValue]
    have hfuel : xs.length < (renderElems xs ++ '\n' :: rest).length + 1 := by
      have := renderElems_length xs
      simp only [List.length_append, List.length_cons]
      omega
    rw [e1, parseValueNL.eq_def]
    show (match parseElems ((renderElems xs ++ '\n' :: rest).length + 1)
        (renderElems xs ++ '\n' :: rest) with
      | some (xs, r1) =>
        match r1 with
        | '\n' :: r => some (FmValue.strList xs, r)
        | _ => none
      | none => none) = some (FmValue.strList xs, rest)
    rw [parseElems_render xs _ ('\n' :: rest) hfuel]
    rfl

theorem stripSep_cons_ne {a : Char} (ha : a ≠ '-') :
    ∀ l, stripSep (a :: l) = none := by
  intro l
  cases l with
  | nil => rfl
  | cons b l2 =>
    cases l2 with
    | nil => rfl
    | cons c l3 =>
      cases l3 with
      | nil => rfl
      | cons d rest => simp [stripSep, ha]

theorem stripSep_sep (l : List Char) :
    stripSep ('-' :: '-' :: '-' :: '\n' :: l) = some l := by
  simp [stripSep]

theorem renderHeader_length :
    ∀ h : List (String × FmValue), h.length ≤ (renderHeader h).length := by
  intro h
  induction h with
  | nil => simp [renderHeader]
  | cons kv rest ih =>
    obtain ⟨k, v⟩ := kv
    have h2 := renderQ_length k.data
    simp only [renderHeader, List.length_append, List.length_cons] at ih ⊢
    omega

theorem parseHeaderLines_render :
    ∀ (h : List (String × FmValue)) (fuel : Nat) (body : List Char),
      h.length < fuel →
      parseHeaderLines fuel
        (renderHeader h ++ '-' :: '-' :: '-' :: '\n' :: body) = some (h, body) := by
  intro h
  induction h with
  | nil =>
    intro fuel body hlen
    cases fuel with
    | zero => omega
    | succ f =>
      show parseHeaderLines (f + 1) ('-' :: '-' :: '-' :: '\n' :: body) = some ([], body)
      rw [parseHeaderLines.eq_def]
      simp [stripSep_sep]
  | cons kv rest ih =>
    obtain ⟨k, v⟩ := kv
    intro fuel body hlen
    cases fuel with
    | zero => omega
    | succ f =>
      have hlen' : rest.length < f := by
        simp at hlen ⊢
        omega
      have e1 : renderHeader ((k, v) :: rest) ++ '-' :: '-' :: '-' :: '\n' :: body
          = '"' :: (escape k.data ++ '"' :: ':' :: ' ' ::
              (renderValue v ++ '\n' ::
                (renderHeader rest ++ '-' :: '-' :: '-' :: '\n' :: body))) := by
        simp [renderHeader, renderQ]
      rw [e1, parseHeaderLines.eq_def]
      simp +decide [stripSep_cons_ne (show ('\"' : Char) ≠ '-' by decide),
        parseQuoted.eq_def, parseQAux_escape, parseValueNL_render,
        ih f body hlen', string_eta]

/-- The codec round-trip, as a reusable lemma. -/
theorem parse_stringify_frontmatter (h : List (String × FmValue)) (b : String) :
    parseFrontmatter (stringifyFrontmatter h b) = some (h, b) := by
  rw [parseFrontmatter, stringifyFrontmatter]
  rw [show (String.mk ('-' :: '-' :: '-' :: '\n' ::
      (renderHeader h ++ '-' :: '-' :: '-' :: '\n' :: b.data))).data
    = '-' :: '-' :: '-' :: '\n' ::
      (renderHeader h ++ '-' :: '-' :: '-' :: '\n' :: b.data) from rfl]
  rw [stripSep_sep]
  have hfuel : h.length
      < (renderHeader h ++ '-' :: '-' :: '-' :: '\n' :: b.data).length + 1 := by
    have := renderHeader_length h
    simp only [List.length_append, List.length_cons]
    omega
  show (match parseHeaderLines
      ((renderHeader h ++ '-' :: '-' :: '-' :: '\n' :: b.data).length + 1)
      (renderHeader h ++ '-' :: '-' :: '-' :: '\n' :: b.data) with
    | some (h, body) => some (h, String.mk body)
    | none => none) = some (h, b)
  rw [parseHeaderLines_render h _ b.data hfuel]

/-! ### Claim theorem for C3 -/

/-- C3. Codec round-trip: decoding an encoded document returns exactly
the header and the body, for every header of header-safe values and every
body string. -/
theorem c3_codec_roundtrip (h : List (String × FmValue)) (b : String) :
    parseFrontmatter (stringifyFrontmatter h b) = some (h, b) :=
  parse_stringify_frontmatter h b

/-! ## Epic frontmatter: schema, parse, update (`frontmatter.ts`)

`EpicFrontmatterSchema` (lines 33-41): name, status enum, created,
updated, progress in [0, 100], optional non-negative totalTasks and
completedTasks. Numeric fields are `Int` as header numbers are. -/

structure EpicFrontmatter where
  name : String
  status : TStatus
  created : String
  updated : String
  progress : Int
  totalTasks : Option Int
  completedTasks : Option Int
deriving DecidableEq

/-- `Partial<EpicFrontmatter>`: the patch of `updateEpicFrontmatter`. -/
structure EpicPatch where
  name : Option String := none
  status : Option TStatus := none
  created : Option String := none
  updated : Option String := none
  progress : Option Int := none
  totalTasks : Option Int := none
  completedTasks : Option Int := none
deriving DecidableEq

def statusToStr : TStatus → String
  | .sOpen => "open"
  | .sInProgress => "in-progress"
  | .sCompleted => "completed"
  | .sBlocked => "blocked"

def strToStatus (s : String) : Option TStatus :=
  if s = "open" then some .sOpen
  else if s = "in-progress" then some .sInProgress
  else if s = "completed" then some .sCompleted
  else if s = "blocked" then some .sBlocked
  else none

/-- Lookup of a header key (JS object property access). -/
def hLookup (h : List (String × FmValue)) (k : String) : Option FmValue :=
  (h.find? (fun p => p.1 == k)).map Prod.snd

/-- The header rendered from a validated epic record, in schema key
order (the order `zod`'s parse result and the object spread preserve). -/
def epicToHeader (e : EpicFrontmatter) : List (String × FmValue) :=
  [("name", .str e.name), ("status", .str (statusToStr e.status)),
   ("created", .str e.created), ("updated", .str e.updated),
   ("progress", .num e.progress)]
  ++ (match e.totalTasks with
      | some n => [("totalTasks", FmValue.num n)]
      | none => [])
  ++ (match e.completedTasks with
      | some n => [("completedTasks", FmValue.num n)]
      | none => [])

/-- The numeric range checks of `EpicFrontmatterSchema`. -/
def validEpic (e : EpicFrontmatter) : Bool :=
  decide (0 ≤ e.progress) && decide (e.progress ≤ 100) &&
  (match e.totalTasks with
   | some n => decide (0 ≤ n)
   | none => true) &&
  (match e.completedTasks with
   | some n => decide (0 ≤ n)
   | none => true)

/-- An optional numeric field: absent is fine, present must be a number. -/
def optNum : Option FmValue → Option (Option Int)
  | none => some none
  | some (.num n) => some (some n)
  | some _ => none

/-- Validation of a parsed header against `EpicFrontmatterSchema`
(`zod`'s `.parse`): required fields with their types, status enum,
numeric ranges. -/
def parseEpicHeader (h : List (String × FmValue)) : Option EpicFrontmatter :=
  match hLookup h "name", hLookup h "status", hLookup h "created",
      hLookup h "updated", hLookup h "progress" with
  | some (.str nm), some (.str st), some (.str cr), some (.str up),
      some (.num pr) =>
    match strToStatus st with
    | some status =>
      match optNum (hLookup h "totalTasks"), optNum (hLookup h "completedTasks") with
      | some tt, some ct =>
        let e : EpicFrontmatter := ⟨nm, status, cr, up, pr, tt, ct⟩
        if validEpic e then some e else none
      | _, _ => none
    | none => none
  | _, _, _, _, _ => none

/-- `frontmatter.ts` lines 111-122: `parseEpicFrontmatter` — parse, then
validate the header against the epic schema. -/
def parseEpicFrontmatter (markdown : String) : Option (EpicFrontmatter × String) :=
  match parseFrontmatter markdown with
  | some (h, body) =>
    match parseEpicHeader h with
    | some e => some (e, body)
    | none => none
  | none => none

/-- The object spread `{...parsed.data, ...updates, updated: now}` on the
validated record: patch wins, `updated` always refreshed last. -/
def mergeEpic (e : EpicFrontmatter) (p : EpicPatch) (now : String) : EpicFrontmatter :=
  { name := p.name.getD e.name
    status := p.status.getD e.status
    created := p.created.getD e.created
    updated := now
    progress := p.progress.getD e.progress
    totalTasks := match p.totalTasks with
      | some n => some n
      | none => e.totalTasks
    completedTasks := match p.completedTasks with
      | some n => some n
      | none => e.completedTasks }

/-- `frontmatter.ts` lines 205-224: `updateEpicFrontmatter` — parse and
validate, merge the patch with `updated := now`, re-validate, re-encode
with the parsed content. `none` models a thrown `ZodError`. -/
def updateEpicFrontmatter (markdown : String) (p : EpicPatch) (now : String) :
    Option String :=
  match parseEpicFrontmatter markdown with
  | some (e, body) =>
    let merged := mergeEpic e p now
    if validEpic merged then
      some (stringifyFrontmatter (epicToHeader merged) body)
    else none
  | none => none

/-- `frontmatter.ts` lines 184-195: the generic `updateFrontmatter` —
no validation, no timestamp refresh, plain object spread
`{...parsed.data, ...updates}` re-encoded over the same content. -/
def jsMerge (h updates : List (String × FmValue)) : List (String × FmValue) :=
  h.map (fun kv => (kv.1, (hLookup updates kv.1).getD kv.2))
  ++ updates.filter (fun kv => !(h.any (fun kv2 => kv2.1 == kv.1)))

def updateFrontmatter (markdown : String) (updates : List (String × FmValue)) :
    Option String :=
  match parseFrontmatter markdown with
  | some (h, body) => some (stringifyFrontmatter (jsMerge h updates) body)
  | none => none

/-! ### Epic update lemmas -/

theorem strToStatus_statusToStr (st : TStatus) :
    strToStatus (statusToStr st) = some st := by
  cases st <;> rfl

theorem parseEpicHeader_epicToHeader (e : EpicFrontmatter)
    (hv : validEpic e = true) :
    parseEpicHeader (epicToHeader e) = some e := by
  obtain ⟨nm, st, cr, up, pr, tt, ct⟩ := e
  cases tt <;> cases ct <;>
    simp +decide [parseEpicHeader, epicToHeader, hLookup, optNum,
      strToStatus_statusToStr, List.find?, hv]

theorem parseEpicHeader_valid {h : List (String × FmValue)} {e : EpicFrontmatter}
    (hp : parseEpicHeader h = some e) : validEpic e = true := by
  rw [parseEpicHeader.eq_def] at hp
  split at hp
  case _ nm st cr up pr _ =>
    split at hp
    case _ status _ =>
      split at hp
      case _ tt ct _ _ =>
        dsimp only at hp
        split at hp
        case isTrue hv =>
          simp only [Option.some.injEq] at hp
          rw [← hp]
          exact hv
        case isFalse => exact absurd hp (by simp)
      case _ => exact absurd hp (by simp)
    case _ => exact absurd hp (by simp)
  case _ => exact absurd hp (by simp)

theorem parseEpicFrontmatter_valid {raw : String} {E : EpicFrontmatter}
    {body : String} (h : parseEpicFrontmatter raw = some (E, body)) :
    validEpic E = true := by
  rw [parseEpicFrontmatter.eq_def] at h
  split at h
  case _ hdr body2 _ =>
    split at h
    case _ e hpe =>
      simp only [Option.some.injEq, Prod.mk.injEq] at h
      rw [← h.1]
      exact parseEpicHeader_valid hpe
    case _ => exact absurd h (by simp)
  case _ => exact absurd h (by simp)

theorem validEpic_merge (E : EpicFrontmatter) (p : EpicPatch) (now : String)
    (hE : validEpic E = true)
    (hpr : ∀ x ∈ p.progress, 0 ≤ x ∧ x ≤ 100)
    (htt : ∀ x ∈ p.totalTasks, 0 ≤ x)
    (hct : ∀ x ∈ p.completedTasks, 0 ≤ x) :
    validEpic (mergeEpic E p now) = true := by
  simp only [validEpic, Bool.and_eq_true, decide_eq_true_eq] at hE ⊢
  obtain ⟨⟨⟨h1, h2⟩, h3⟩, h4⟩ := hE
  refine ⟨⟨⟨?_, ?_⟩, ?_⟩, ?_⟩
  · cases hp : p.progress with
    | none => simpa [mergeEpic, hp] using h1
    | some x => simpa [mergeEpic, hp] using (hpr x (by simp [hp])).1
  · cases hp : p.progress with
    | none => simpa [mergeEpic, hp] using h2
    | some x => simpa [mergeEpic, hp] using (hpr x (by simp [hp])).2
  · cases hp : p.totalTasks with
    | none => simpa [mergeEpic, hp] using h3
    | some x => simpa [mergeEpic, hp] using htt x (by simp [hp])
  · cases hp : p.completedTasks with
    | none => simpa [mergeEpic, hp] using h4
    | some x => simpa [mergeEpic, hp] using hct x (by simp [hp])

/-- Parsing a canonically encoded valid epic document succeeds with
exactly the record and body. -/
theorem parseEpic_stringify_canonical (e : EpicFrontmatter) (body : String)
    (hv : validEpic e = true) :
    parseEpicFrontmatter (stringifyFrontmatter (epicToHeader e) body)
      = some (e, body) := by
  rw [parseEpicFrontmatter.eq_def, parse_stringify_frontmatter]
  simp [parseEpicHeader_epicToHeader e hv]

/-! ### Claim theorem for C7 -/

/-- C7. Epic header update frame property: on a document with a valid
epic header, `updateEpicFrontmatter` succeeds, its output re-parses to
exactly the old header overridden by the patch (patch wins) with
`updated` set to `now`, and the body is byte-for-byte the original body. -/
theorem c7_epic_update_frame (raw : String) (p : EpicPatch) (now : String)
    (E : EpicFrontmatter) (body : String)
    (hparse : parseEpicFrontmatter raw = some (E, body))
    (hpr : ∀ x ∈ p.progress, 0 ≤ x ∧ x ≤ 100)
    (htt : ∀ x ∈ p.totalTasks, 0 ≤ x)
    (hct : ∀ x ∈ p.completedTasks, 0 ≤ x) :
    updateEpicFrontmatter raw p now
      = some (stringifyFrontmatter (epicToHeader (mergeEpic E p now)) body) ∧
    parseEpicFrontmatter
      (stringifyFrontmatter (epicToHeader (mergeEpic E p now)) body)
      = some (mergeEpic E p now, body) ∧
    mergeEpic E p now
      = { name := p.name.getD E.name
          status := p.status.getD E.status
          created := p.created.getD E.created
          updated := now
          progress := p.progress.getD E.progress
          totalTasks := p.totalTasks.or E.totalTasks
          completedTasks := p.completedTasks.or E.completedTasks } := by
  have hE := parseEpicFrontmatter_valid hparse
  have hmv := validEpic_merge E p now hE hpr htt hct
  refine ⟨?_, parseEpic_stringify_canonical _ body hmv, ?_⟩
  · rw [updateEpicFrontmatter.eq_def, hparse]
    simp [hmv]
  · simp only [mergeEpic]
    cases p.totalTasks <;> cases p.completedTasks <;> rfl

theorem c7_epic_update_frame_witness :
    updateEpicFrontmatter
        (stringifyFrontmatter (epicToHeader
          ⟨"demo", .sOpen, "2025-01-01T00:00:00Z", "2025-01-01T00:00:00Z",
            0, some 2, some 0⟩) "## Overview\n")
        { status := some .sCompleted, progress := some 100 }
        "2025-02-02T00:00:00Z"
      = some (stringifyFrontmatter (epicToHeader
          (mergeEpic
            ⟨"demo", .sOpen, "2025-01-01T00:00:00Z", "2025-01-01T00:00:00Z",
              0, some 2, some 0⟩
            { status := some .sCompleted, progress := some 100 }
            "2025-02-02T00:00:00Z")) "## Overview\n") :=
  (c7_epic_update_frame _
    { status := some .sCompleted, progress := some 100 }
    "2025-02-02T00:00:00Z"
    ⟨"demo", .sOpen, "2025-01-01T00:00:00Z", "2025-01-01T00:00:00Z",
      0, some 2, some 0⟩ "## Overview\n"
    (parseEpic_stringify_canonical _ "## Overview\n" (by decide))
    (by simp) (by simp) (by simp)).1

/-! ### Generic update lemmas for C10 -/

theorem find?_filter_of_imp {α} (p q : α → Bool) (l : List α)
    (hpq : ∀ x, p x = true → q x = true) :
    (l.filter q).find? p = l.find? p := by
  induction l with
  | nil => rfl
  | cons a rest ih =>
    rw [List.filter_cons]
    by_cases hq : q a = true
    · rw [if_pos hq]
      cases hp : p a
      · rw [List.find?_cons_of_neg _ (by simp [hp]),
          List.find?_cons_of_neg _ (by simp [hp]), ih]
      · rw [List.find?_cons_of_pos _ hp, List.find?_cons_of_pos _ hp]
    · rw [if_neg hq]
      have hp : p a = false := by
        cases hp : p a
        · rfl
        · exact absurd (hpq a hp) hq
      rw [List.find?_cons_of_neg _ (by simp [hp]), ih]

theorem hLookup_jsMerge (h u : List (String × FmValue)) (k : String) :
    hLookup (jsMerge h u) k
      = match hLookup h k with
        | some v => some ((hLookup u k).getD v)
        | none => hLookup u k := by
  unfold jsMerge
  show (((h.map (fun kv => (kv.1, (hLookup u kv.1).getD kv.2))
      ++ u.filter (fun kv => !(h.any (fun kv2 => kv2.1 == kv.1)))).find?
        (fun p => p.1 == k)).map Prod.snd) = _
  rw [List.find?_append]
  rw [List.find?_map]
  have hcomp : ((fun p : String × FmValue => p.1 == k) ∘
      (fun kv : String × FmValue => (kv.1, (hLookup u kv.1).getD kv.2)))
      = fun kv : String × FmValue => kv.1 == k := by
    funext kv
    rfl
  rw [hcomp]
  cases hf : h.find? (fun p => p.1 == k) with
  | some kv =>
    have hkey : kv.1 = k := by simpa using List.find?_some hf
    show ((((some kv).map
        (fun kv : String × FmValue => (kv.1, (hLookup u kv.1).getD kv.2))).or _).map
          Prod.snd) = _
    rw [show hLookup h k = some kv.2 from by rw [hLookup, hf]; rfl]
    simp [Option.or, hkey]
  | none =>
    show (((none : Option (String × FmValue)).or
        ((u.filter (fun kv => !(h.any (fun kv2 => kv2.1 == kv.1)))).find?
          (fun p => p.1 == k))).map Prod.snd) = _
    rw [show hLookup h k = none from by rw [hLookup, hf]; rfl]
    rw [List.find?_eq_none] at hf
    rw [find?_filter_of_imp _ _ u (by
      intro kv hkv
      have hk : kv.1 = k := by simpa using hkv
      simp only [Bool.not_eq_true']
      rw [List.any_eq_false]
      intro kv2 hkv2
      rw [hk]
      exact (by simpa using hf kv2 hkv2 : ¬(kv2.1 == k) = true))]
    rw [Option.none_or]
    rfl

theorem hLookup_epicToHeader_updated (e : EpicFrontmatter) :
    hLookup (epicToHeader e) "updated" = some (.str e.updated) := by
  simp +decide [hLookup, epicToHeader, List.find?]

/-! ### Claim theorem for C10 -/

/-- C10. The generic `updateFrontmatter` does not refresh the `updated`
timestamp: for a patch with no `updated` key, the output header is
exactly the old fields overridden by the patch (patch wins, new keys
appended) with `updated` equal to its original value, over the unchanged
body; only the kind-specific updates (here `updateEpicFrontmatter`) set
`updated` to now. -/
theorem c10_generic_update_keeps_timestamp (markdown : String)
    (updates hdr : List (String × FmValue)) (body : String)
    (hparse : parseFrontmatter markdown = some (hdr, body))
    (hupd : hLookup updates "updated" = none) :
    updateFrontmatter markdown updates
      = some (stringifyFrontmatter (jsMerge hdr updates) body) ∧
    parseFrontmatter (stringifyFrontmatter (jsMerge hdr updates) body)
      = some (jsMerge hdr updates, body) ∧
    hLookup (jsMerge hdr updates) "updated" = hLookup hdr "updated" ∧
    (∀ k v, hLookup updates k = some v → hLookup (jsMerge hdr updates) k = some v) ∧
    (∀ k, hLookup updates k = none → hLookup (jsMerge hdr updates) k = hLookup hdr k) ∧
    (∀ raw p now out, updateEpicFrontmatter raw p now = some out →
      ∃ hdr2 body2, parseFrontmatter out = some (hdr2, body2) ∧
        hLookup hdr2 "updated" = some (.str now)) := by
  have hwin : ∀ k v, hLookup updates k = some v →
      hLookup (jsMerge hdr updates) k = some v := by
    intro k v hv
    rw [hLookup_jsMerge]
    cases hh : hLookup hdr k <;> simp [hv]
  have hkeep : ∀ k, hLookup updates k = none →
      hLookup (jsMerge hdr updates) k = hLookup hdr k := by
    intro k hk
    rw [hLookup_jsMerge]
    cases hh : hLookup hdr k <;> simp [hk]
  refine ⟨?_, parse_stringify_frontmatter _ body, hkeep "updated" hupd, hwin, hkeep, ?_⟩
  · rw [updateFrontmatter.eq_def, hparse]
  · intro raw p now out hout
    rw [updateEpicFrontmatter.eq_def] at hout
    split at hout
    case _ e b _ =>
      dsimp only at hout
      split at hout
      case isTrue =>
        simp only [Option.some.injEq] at hout
        refine ⟨epicToHeader (mergeEpic e p now), b, ?_, ?_⟩
        · rw [← hout, parse_stringify_frontmatter]
        · rw [hLookup_epicToHeader_updated]
          rfl
      case isFalse => exact absurd hout (by simp)
    case _ => exact absurd hout (by simp)

theorem c10_generic_update_keeps_timestamp_witness :
    hLookup (jsMerge [("name", FmValue.str "x"), ("updated", FmValue.str "old")]
        [("name", FmValue.str "y")]) "updated"
      = hLookup [("name", FmValue.str "x"), ("updated", FmValue.str "old")] "updated" :=
  (c10_generic_update_keeps_timestamp
    (stringifyFrontmatter [("name", FmValue.str "x"), ("updated", FmValue.str "old")] "B")
    [("name", FmValue.str "y")]
    [("name", FmValue.str "x"), ("updated", FmValue.str "old")] "B"
    (parse_stringify_frontmatter _ "B") (by decide)).2.2.1

/-! ## Memory bank (audit log) — `file-ops.ts` lines 280-603

Content is a string; `clearMemoryBank` reinitializes it to the fixed
header, `logToMemoryBank` appends `'\n' + formatMemoryBankEntry(entry)`,
and `getMemoryBankStats` counts the nonblank pieces of
`content.split('---')` minus one (the header). Only `totalEntries` is
modelled; context values (arbitrary JSON in the source) are modelled as
strings written through `JSON.stringify`, i.e. quoted with escapes. -/

structure MemoryBankEntry where
  timestamp : String
  operation : String
  details : String
  context : List (String × String)
  success : Bool
  error : Option String
deriving DecidableEq

/-- `JSON.stringify` of a string value (quote and escape). -/
def jsonStr (v : String) : String := String.mk (renderQ v.data)

/-- The fixed header written by `initMemoryBank`. -/
def memHeader : String :=
  "# Memory Bank\n\n**Purpose**: Shared context and audit trail for Project Management operations\n\n**Format**: Chronological log of all PM operations (PRD, Epic, Task management)\n\n**Usage**: Agents query this log to understand project history and context\n\n---\n\n"

/-- The header before its closing delimiter line. -/
def memHeaderMain : String :=
  "# Memory Bank\n\n**Purpose**: Shared context and audit trail for Project Management operations\n\n**Format**: Chronological log of all PM operations (PRD, Epic, Task management)\n\n**Usage**: Agents query this log to understand project history and context\n\n"

def statusEmoji (b : Bool) : String := if b then "✅" else "❌"

def contextLines : List (String × String) → List Char
  | [] => []
  | (k, v) :: rest =>
    "- ".data ++ k.data ++ ": ".data ++ (jsonStr v).data ++ '\n' :: contextLines rest

/-- The formatted entry before its closing `---` line. -/
def bodyOf (e : MemoryBankEntry) : List Char :=
  "## [".data ++ e.timestamp.data ++ "] ".data ++ (statusEmoji e.success).data ++
  " Operation: ".data ++ e.operation.data ++ "\n\n**Details**: ".data ++
  e.details.data ++ "\n\n".data ++
  (if e.context.isEmpty then []
   else "**Context**:\n".data ++ contextLines e.context ++ ['\n']) ++
  (match e.error with
   | some err => if err.isEmpty then [] else "**Error**: ".data ++ err.data ++ "\n\n".data
   | none => [])

/-- `formatMemoryBankEntry` (`file-ops.ts` lines 417-439). -/
def formatMemoryBankEntry (e : MemoryBankEntry) : String :=
  String.mk (bodyOf e ++ '-' :: '-' :: '-' :: ['\n'])

/-- State after `clearMemoryBank` followed by `logToMemoryBank` for each
entry in order (`file-ops.ts` lines 390-412 and 594-603). -/
def memAfter (es : List MemoryBankEntry) : String :=
  es.foldl (fun c e => c ++ "\n" ++ formatMemoryBankEntry e) memHeader

/-- `content.split('---')`: left-to-right, non-overlapping. -/
def splitSepMB : List Char → List (List Char)
  | [] => [[]]
  | '-' :: '-' :: '-' :: rest => [] :: splitSepMB rest
  | c :: rest =>
    match splitSepMB rest with
    | h :: t => (c :: h) :: t
    | [] => [[c]]

/-- `totalEntries` of `getMemoryBankStats` (`file-ops.ts` lines 546-588):
nonblank pieces of the split, minus one for the header (clamped at 0). -/
def getMemoryBankStatsTotal (content : String) : Nat :=
  ((splitSepMB content.data).filter (fun p => 0 < (jsTrim p).length)).length - 1

/-- Whether a character list contains `---` as a contiguous run. -/
def hasSep : List Char → Bool
  | a :: b :: c :: rest =>
    (a == '-' && b == '-' && c == '-') || hasSep (b :: c :: rest)
  | _ => false

/-- All the strings this entry writes into the log are free of `---`. -/
def entryFieldsSafe (e : MemoryBankEntry) : Prop :=
  hasSep e.timestamp.data = false ∧
  hasSep e.operation.data = false ∧
  hasSep e.details.data = false ∧
  (∀ kv ∈ e.context, hasSep (kv.1 : String).data = false ∧
    hasSep (jsonStr kv.2).data = false) ∧
  (∀ err ∈ e.error.toList, hasSep err.data = false)

instance (e : MemoryBankEntry) : Decidable (entryFieldsSafe e) := by
  unfold entryFieldsSafe
  infer_instance

/-! ### `hasSep` algebra -/

theorem hasSep_tail {a : Char} {l : List Char} (h : hasSep (a :: l) = false) :
    hasSep l = false := by
  cases l with
  | nil => rfl
  | cons b l2 =>
    cases l2 with
    | nil => rfl
    | cons c l3 =>
      rw [show hasSep (a :: b :: c :: l3)
          = ((a == '-' && b == '-' && c == '-') || hasSep (b :: c :: l3)) from rfl] at h
      exact (Bool.or_eq_false_iff.mp h).2

theorem hasSep_cons {c : Char} {l : List Char} (hc : c ≠ '-')
    (hl : hasSep l = false) : hasSep (c :: l) = false := by
  cases l with
  | nil => rfl
  | cons a l2 =>
    cases l2 with
    | nil => rfl
    | cons b l3 =>
      rw [show hasSep (c :: a :: b :: l3)
          = ((c == '-' && a == '-' && b == '-') || hasSep (a :: b :: l3)) from rfl]
      rw [hl]
      have : (c == '-') = false := by simpa using hc
      simp [this]

theorem hasSep_append : ∀ (x y : List Char), hasSep x = false → hasSep y = false →
    (x.getLast? ≠ some '-' ∨ y.head? ≠ some '-') → hasSep (x ++ y) = false := by
  intro x
  induction x with
  | nil => intro y _ hy _; simpa using hy
  | cons a x' ih =>
    intro y hx hy hside
    cases x' with
    | nil =>
      show hasSep (a :: y) = false
      cases y with
      | nil => rfl
      | cons y0 y1 =>
        cases y1 with
        | nil => rfl
        | cons y2 yr =>
          rw [show hasSep (a :: y0 :: y2 :: yr)
              = ((a == '-' && y0 == '-' && y2 == '-') || hasSep (y0 :: y2 :: yr)) from rfl]
          rw [show hasSep (y0 :: y2 :: yr) = false from hy]
          have hwin : (a == '-' && y0 == '-' && y2 == '-') = false := by
            rcases hside with hs | hs
            · have ha : a ≠ '-' := by simpa using hs
              simp [ha]
            · have hy0 : y0 ≠ '-' := by simpa using hs
              simp [hy0]
          rw [hwin]
          rfl
    | cons b x'' =>
      have hx' : hasSep (b :: x'') = false := hasSep_tail hx
      have hsides : (b :: x'').getLast? ≠ some '-' ∨ y.head? ≠ some '-' := by
        rcases hside with hs | hs
        · left
          rw [List.getLast?_cons_cons] at hs
          exact hs
        · right
          exact hs
      have hrec := ih y hx' hy hsides
      cases x'' with
      | nil =>
        cases y with
        | nil => simpa using hx
        | cons y0 yr =>
          show hasSep (a :: b :: y0 :: yr) = false
          rw [show hasSep (a :: b :: y0 :: yr)
              = ((a == '-' && b == '-' && y0 == '-') || hasSep (b :: y0 :: yr)) from rfl]
          rw [show hasSep (b :: y0 :: yr) = false from by simpa using hrec]
          have hwin : (a == '-' && b == '-' && y0 == '-') = false := by
            rcases hside with hs | hs
            · have hb : b ≠ '-' := by
                rw [List.getLast?_cons_cons] at hs
                simpa using hs
              simp [hb]
            · have hy0 : y0 ≠ '-' := by simpa using hs
              simp [hy0]
          rw [hwin]
          rfl
      | cons cc x3 =>
        show hasSep (a :: b :: cc :: (x3 ++ y)) = false
        rw [show hasSep (a :: b :: cc :: (x3 ++ y))
            = ((a == '-' && b == '-' && cc == '-') || hasSep (b :: cc :: (x3 ++ y))) from rfl]
        have hwin : (a == '-' && b == '-' && cc == '-') = false := by
          rw [show hasSep (a :: b :: cc :: x3)
              = ((a == '-' && b == '-' && cc == '-') || hasSep (b :: cc :: x3)) from rfl] at hx
          exact (Bool.or_eq_false_iff.mp hx).1
        rw [show hasSep (b :: cc :: (x3 ++ y)) = false from by simpa using hrec]
        rw [hwin]
        rfl

/-! ### `splitSepMB` structure lemmas -/

theorem splitSepMB_noSep : ∀ l : List Char, hasSep l = false → splitSepMB l = [l] := by
  intro l
  induction l with
  | nil => intro _; rfl
  | cons c rest ih =>
    intro h
    rw [splitSepMB.eq_def]
    split
    next heq => exact absurd heq (by simp)
    next rest2 heq =>
      rw [heq] at h
      rw [show hasSep ('-' :: '-' :: '-' :: rest2)
          = ((('-' : Char) == '-' && ('-' : Char) == '-' && ('-' : Char) == '-')
            || hasSep ('-' :: '-' :: rest2)) from rfl] at h
      simp at h
    next _ r3 tl _ heqq =>
      injection heqq with h1 h2
      subst h1
      subst h2
      rw [ih (hasSep_tail h)]

theorem splitSepMB_append_sep : ∀ (A B : List Char),
    hasSep (A ++ ['-', '-']) = false →
    splitSepMB (A ++ '-' :: '-' :: '-' :: B) = A :: splitSepMB B := by
  intro A
  induction A with
  | nil => intro B _; rfl
  | cons c A' ih =>
    intro B hsafe
    have hsafe' : hasSep (A' ++ ['-', '-']) = false := by
      have : hasSep (c :: (A' ++ ['-', '-'])) = false := by simpa using hsafe
      exact hasSep_tail this
    rw [List.cons_append, splitSepMB.eq_def]
    split
    next heq => exact absurd heq (by simp)
    next rest2 heq =>
      injection heq with h1 h2
      subst h1
      -- the first pattern fired: A begins a `---` run, contradicting safety
      exfalso
      cases A' with
      | nil =>
        exact absurd hsafe (by decide)
      | cons d A'' =>
        injection h2 with h3 h4
        subst h3
        cases A'' with
        | nil => exact absurd hsafe (by decide)
        | cons e A3 =>
          injection h4 with h5 h6
          subst h5
          rw [show hasSep (('-' :: '-' :: '-' :: A3) ++ ['-', '-'])
              = ((('-' : Char) == '-' && ('-' : Char) == '-' && ('-' : Char) == '-')
                || hasSep (('-' :: '-' :: A3) ++ ['-', '-'])) from rfl] at hsafe
          simp at hsafe
    next _ r3 tl _ heqq =>
      injection heqq with h1 h2
      subst h1
      subst h2
      rw [ih B hsafe']

/-! ### Entry bodies are separator-free and end in a newline -/

theorem renderQ_getLast (s : List Char) : (renderQ s).getLast? = some '"' := by
  rw [renderQ, show '"' :: (escape s ++ ['"']) = ('"' :: escape s) ++ ['"'] from by simp]
  rw [List.getLast?_append_of_ne_nil _ (by simp)]
  rfl

theorem headne_of_head {c : Char} {l : List Char} (h : l.head? = some c)
    (hc : c ≠ '-') : l.head? ≠ some '-' := by
  rw [h]
  simp [hc]

theorem lastne_of_last {c : Char} {l : List Char} (h : l.getLast? = some c)
    (hc : c ≠ '-') : l.getLast? ≠ some '-' := by
  rw [h]
  simp [hc]

theorem hasSep_statusEmoji (b : Bool) : hasSep (statusEmoji b).data = false := by
  cases b <;> decide

theorem hasSep_contextLines {ctx : List (String × String)}
    (h : ∀ kv ∈ ctx, hasSep (kv.1 : String).data = false ∧
      hasSep (jsonStr kv.2).data = false) :
    hasSep (contextLines ctx) = false := by
  induction ctx with
  | nil => rfl
  | cons kv rest ih =>
    obtain ⟨k, v⟩ := kv
    have hk := (h (k, v) (by simp)).1
    have hv := (h (k, v) (by simp)).2
    have hrest := ih (fun kv2 hkv2 => h kv2 (by simp [hkv2]))
    have e1 : contextLines ((k, v) :: rest)
        = "- ".data ++ (k.data ++ (": ".data ++
            ((jsonStr v).data ++ '\n' :: contextLines rest))) := by
      show "- ".data ++ k.data ++ ": ".data ++ (jsonStr v).data ++
          '\n' :: contextLines rest = _
      simp [List.append_assoc]
    rw [e1]
    refine hasSep_append _ _ (by decide) ?_ (Or.inl (by decide))
    refine hasSep_append _ _ hk ?_ (Or.inr (headne_of_head rfl (by decide)))
    refine hasSep_append _ _ (by decide) ?_ (Or.inl (by decide))
    refine hasSep_append _ _ hv ?_ (Or.inr (by simp))
    exact hasSep_cons (by decide) hrest

/-- The optional context block of an entry body. -/
def ctxBlockOf (e : MemoryBankEntry) : List Char :=
  if e.context.isEmpty then []
  else "**Context**:\n".data ++ contextLines e.context ++ ['\n']

/-- The optional error block of an entry body. -/
def errBlockOf (e : MemoryBankEntry) : List Char :=
  match e.error with
  | some err => if err.isEmpty then [] else "**Error**: ".data ++ err.data ++ "\n\n".data
  | none => []

theorem bodyOf_eq_blocks (e : MemoryBankEntry) :
    bodyOf e = "## [".data ++ (e.timestamp.data ++ ("] ".data ++
      ((statusEmoji e.success).data ++ (" Operation: ".data ++ (e.operation.data ++
      ("\n\n**Details**: ".data ++ (e.details.data ++ ("\n\n".data ++
      (ctxBlockOf e ++ errBlockOf e))))))))) := by
  rw [bodyOf, ctxBlockOf, errBlockOf]
  simp [List.append_assoc]

theorem hasSep_ctxBlock {e : MemoryBankEntry} (h : entryFieldsSafe e) :
    hasSep (ctxBlockOf e) = false := by
  rw [ctxBlockOf]
  by_cases hce : e.context.isEmpty
  · rw [if_pos hce]
    rfl
  · rw [if_neg hce]
    rw [show "**Context**:\n".data ++ contextLines e.context ++ ['\n']
        = "**Context**:\n".data ++ (contextLines e.context ++ ['\n']) from by
      simp [List.append_assoc]]
    refine hasSep_append _ _ (by decide) ?_ (Or.inl (by decide))
    refine hasSep_append _ _ (hasSep_contextLines h.2.2.2.1) ?_ (Or.inr (by simp))
    rfl

theorem hasSep_errBlock {e : MemoryBankEntry} (h : entryFieldsSafe e) :
    hasSep (errBlockOf e) = false := by
  cases herr : e.error with
  | none =>
    rw [errBlockOf.eq_def, herr]
    rfl
  | some err =>
    rw [errBlockOf.eq_def, herr]
    show hasSep (if err.isEmpty then []
      else "**Error**: ".data ++ err.data ++ "\n\n".data) = false
    by_cases he : err.isEmpty
    · rw [if_pos he]
      rfl
    · rw [if_neg he]
      rw [show "**Error**: ".data ++ err.data ++ "\n\n".data
          = "**Error**: ".data ++ (err.data ++ "\n\n".data) from by
        simp [List.append_assoc]]
      refine hasSep_append _ _ (by decide) ?_ (Or.inl (by decide))
      refine hasSep_append _ _ (h.2.2.2.2 err (by rw [herr]; simp)) ?_
        (Or.inr (headne_of_head rfl (by decide)))
      decide

theorem ctxBlock_getLast {e : MemoryBankEntry} :
    ctxBlockOf e = [] ∨ (ctxBlockOf e).getLast? = some '\n' := by
  rw [ctxBlockOf]
  by_cases hce : e.context.isEmpty
  · exact Or.inl (by rw [if_pos hce])
  · refine Or.inr ?_
    rw [if_neg hce,
      List.getLast?_append_of_ne_nil _ (by simp)]
    rfl

theorem errBlock_getLast {e : MemoryBankEntry} :
    errBlockOf e = [] ∨ (errBlockOf e).getLast? = some '\n' := by
  cases herr : e.error with
  | none => exact Or.inl (by rw [errBlockOf.eq_def, herr])
  | some err =>
    by_cases he : err.isEmpty
    · refine Or.inl ?_
      rw [errBlockOf.eq_def, herr]
      show (if err.isEmpty then []
        else "**Error**: ".data ++ err.data ++ "\n\n".data) = []
      rw [if_pos he]
    · refine Or.inr ?_
      rw [errBlockOf.eq_def, herr]
      show (if err.isEmpty then []
        else "**Error**: ".data ++ err.data ++ "\n\n".data).getLast? = some '\n'
      rw [if_neg he,
        List.getLast?_append_of_ne_nil _ (by simp)]
      rfl

theorem hasSep_bodyOf {e : MemoryBankEntry} (h : entryFieldsSafe e) :
    hasSep (bodyOf e) = false := by
  rw [bodyOf_eq_blocks]
  refine hasSep_append _ _ (by decide) ?_ (Or.inl (by decide))
  refine hasSep_append _ _ h.1 ?_ (Or.inr (headne_of_head rfl (by decide)))
  refine hasSep_append _ _ (by decide) ?_ (Or.inl (by decide))
  refine hasSep_append _ _ (hasSep_statusEmoji e.success) ?_
    (Or.inr (headne_of_head rfl (by decide)))
  refine hasSep_append _ _ (by decide) ?_ (Or.inl (by decide))
  refine hasSep_append _ _ h.2.1 ?_ (Or.inr (headne_of_head rfl (by decide)))
  refine hasSep_append _ _ (by decide) ?_ (Or.inl (by decide))
  refine hasSep_append _ _ h.2.2.1 ?_ (Or.inr (headne_of_head rfl (by decide)))
  refine hasSep_append _ _ (by decide) ?_ (Or.inl (by decide))
  rcases ctxBlock_getLast (e := e) with hcb | hcb
  · rw [hcb, List.nil_append]
    exact hasSep_errBlock h
  · exact hasSep_append _ _ (hasSep_ctxBlock h) (hasSep_errBlock h)
      (Or.inl (lastne_of_last hcb (by decide)))

theorem bodyOf_getLast (e : MemoryBankEntry) :
    (bodyOf e).getLast? = some '\n' := by
  have htail : ("\n\n".data ++ (ctxBlockOf e ++ errBlockOf e)).getLast?
      = some '\n' := by
    rcases errBlock_getLast (e := e) with heb | heb
    · rcases ctxBlock_getLast (e := e) with hcb | hcb
      · rw [heb, hcb]
        rfl
      · have hne : ctxBlockOf e ≠ [] := by
          intro hcon
          rw [hcon] at hcb
          exact absurd hcb (by decide)
        rw [heb, List.append_nil, List.getLast?_append_of_ne_nil _ hne]
        exact hcb
    · have hne : errBlockOf e ≠ [] := by
        intro hcon
        rw [hcon] at heb
        exact absurd heb (by decide)
      have hne2 : ctxBlockOf e ++ errBlockOf e ≠ [] := by
        intro hc
        rw [List.append_eq_nil] at hc
        exact hne hc.2
      rw [List.getLast?_append_of_ne_nil _ hne2,
        List.getLast?_append_of_ne_nil _ hne]
      exact heb
  have hY : "\n\n".data ++ (ctxBlockOf e ++ errBlockOf e) ≠ [] := by
    intro hc
    rw [List.append_eq_nil] at hc
    exact absurd hc.1 (by decide)
  have hsplit : bodyOf e
      = ("## [".data ++ e.timestamp.data ++ "] ".data ++
         (statusEmoji e.success).data ++ " Operation: ".data ++
         e.operation.data ++ "\n\n**Details**: ".data ++ e.details.data)
        ++ ("\n\n".data ++ (ctxBlockOf e ++ errBlockOf e)) := by
    rw [bodyOf, ctxBlockOf, errBlockOf]
    simp [List.append_assoc]
  rw [hsplit, List.getLast?_append_of_ne_nil _ hY]
  exact htail

/-! ### Assembling the memory bank content and counting its pieces -/

/-- The characters appended after the header by the successive
`logToMemoryBank` calls. -/
def entriesTail : List MemoryBankEntry → List Char
  | [] => []
  | e :: rest => '\n' :: (bodyOf e ++ '-' :: '-' :: '-' :: '\n' :: entriesTail rest)

/-- The pieces of the split after the header piece, starting from the
leftover `pre` of the previous delimiter. -/
def entryPieces : List Char → List MemoryBankEntry → List (List Char)
  | pre, [] => [pre]
  | pre, e :: rest => (pre ++ '\n' :: bodyOf e) :: entryPieces ['\n'] rest

theorem memAfter_data : ∀ (es : List MemoryBankEntry) (c : String),
    (es.foldl (fun c e => c ++ "\n" ++ formatMemoryBankEntry e) c).data
      = c.data ++ entriesTail es := by
  intro es
  induction es with
  | nil =>
    intro c
    rw [List.foldl_nil, entriesTail, List.append_nil]
  | cons e rest ih =>
    intro c
    rw [List.foldl_cons, ih, entriesTail]
    simp [formatMemoryBankEntry, List.append_assoc,
      show ("\n" : String).data = ['\n'] from rfl]

set_option maxRecDepth 8192 in
theorem memAfter_eq (es : List MemoryBankEntry) :
    (memAfter es).data
      = memHeaderMain.data ++ '-' :: '-' :: '-' :: '\n' :: '\n' :: entriesTail es := by
  rw [memAfter, memAfter_data es memHeader]
  rw [show memHeader.data
      = memHeaderMain.data ++ '-' :: '-' :: '-' :: '\n' :: '\n' :: ([] : List Char)
      from rfl]
  simp [List.append_assoc]

theorem splitSepMB_entriesTail : ∀ (es : List MemoryBankEntry) (pre : List Char),
    hasSep pre = false → (∀ e ∈ es, entryFieldsSafe e) →
    splitSepMB (pre ++ entriesTail es) = entryPieces pre es := by
  intro es
  induction es with
  | nil =>
    intro pre hpre _
    rw [entriesTail, List.append_nil, splitSepMB_noSep pre hpre]
    rfl
  | cons e rest ih =>
    intro pre hpre hsafe
    have he := hsafe e (by simp)
    have hbody := hasSep_bodyOf he
    have hblast := bodyOf_getLast e
    have hbne : bodyOf e ≠ [] := by
      intro hc
      rw [hc] at hblast
      exact absurd hblast (by decide)
    have hA : hasSep (pre ++ '\n' :: bodyOf e) = false :=
      hasSep_append pre ('\n' :: bodyOf e) hpre
        (hasSep_cons (by decide) hbody)
        (Or.inr (headne_of_head rfl (by decide)))
    have hAlast : (pre ++ '\n' :: bodyOf e).getLast? = some '\n' := by
      rw [List.getLast?_append_of_ne_nil _ (by simp),
        show ('\n' :: bodyOf e) = ['\n'] ++ bodyOf e from rfl,
        List.getLast?_append_of_ne_nil _ hbne]
      exact hblast
    have hAsafe : hasSep ((pre ++ '\n' :: bodyOf e) ++ ['-', '-']) = false :=
      hasSep_append _ _ hA (by decide)
        (Or.inl (lastne_of_last hAlast (by decide)))
    have hsplit : pre ++ entriesTail (e :: rest)
        = (pre ++ '\n' :: bodyOf e)
          ++ '-' :: '-' :: '-' :: ('\n' :: entriesTail rest) := by
      rw [entriesTail]
      rw [show ('\n' :: (bodyOf e ++ '-' :: '-' :: '-' :: '\n' :: entriesTail rest))
          = ('\n' :: bodyOf e) ++ '-' :: '-' :: '-' :: ('\n' :: entriesTail rest)
          from by simp]
      rw [← List.append_assoc]
    rw [hsplit, splitSepMB_append_sep _ _ hAsafe]
    rw [show ('\n' :: entriesTail rest) = ['\n'] ++ entriesTail rest from rfl]
    rw [ih ['\n'] (by decide) (fun e2 he2 => hsafe e2 (by simp [he2]))]
    rfl

set_option maxRecDepth 8192 in
theorem splitSepMB_memAfter (es : List MemoryBankEntry)
    (h : ∀ e ∈ es, entryFieldsSafe e) :
    splitSepMB (memAfter es).data
      = memHeaderMain.data :: entryPieces ['\n', '\n'] es := by
  rw [memAfter_eq]
  rw [splitSepMB_append_sep memHeaderMain.data
    ('\n' :: '\n' :: entriesTail es) (by decide)]
  rw [show ('\n' :: '\n' :: entriesTail es)
      = ('\n' :: '\n' :: []) ++ entriesTail es from rfl]
  rw [splitSepMB_entriesTail es ('\n' :: '\n' :: []) (by decide) h]

theorem nonblank_of_mem {l : List Char} {c : Char} (hc : c ∈ l)
    (hns : jsIsSpace c = false) : 0 < (jsTrim l).length := by
  have h1 : 0 < l.countP (fun a => !jsIsSpace a) :=
    List.countP_pos_iff.mpr ⟨c, hc, by simp [hns]⟩
  have h2 : (jsTrim l).countP (fun a => !jsIsSpace a)
      = l.countP (fun a => !jsIsSpace a) :=
    countP_jsTrim _ (fun a ha => by simp [ha]) l
  have h3 : (jsTrim l).countP (fun a => !jsIsSpace a) ≤ (jsTrim l).length :=
    List.countP_le_length _
  omega

theorem filter_entryPieces : ∀ (es : List MemoryBankEntry) (pre : List Char),
    (jsTrim pre).length = 0 →
    ((entryPieces pre es).filter (fun p => 0 < (jsTrim p).length)).length
      = es.length := by
  intro es
  induction es with
  | nil =>
    intro pre hpre
    rw [entryPieces, List.filter_cons, if_neg (by simp [hpre])]
    rfl
  | cons e rest ih =>
    intro pre hpre
    have hashmem : '#' ∈ bodyOf e := by
      rw [bodyOf_eq_blocks]
      exact List.mem_append.mpr (Or.inl (by decide))
    have hmem : '#' ∈ pre ++ '\n' :: bodyOf e :=
      List.mem_append.mpr (Or.inr (List.mem_cons_of_mem _ hashmem))
    have hpos : 0 < (jsTrim (pre ++ '\n' :: bodyOf e)).length :=
      nonblank_of_mem hmem (by decide)
    rw [entryPieces, List.filter_cons, if_pos (by simpa using hpos)]
    rw [List.length_cons, ih ['\n'] (by decide)]
    rfl

/-! ### Claim theorems for C5 -/

/-- An entry whose details contain `---`: logging it inflates the count. -/
def c5BadEntry : MemoryBankEntry :=
  ⟨"t", "op", "--- x ---", [], true, none⟩

set_option maxRecDepth 8192 in
/-- C5 counterexample: after clearing the memory bank and logging a single
entry whose details field is "--- x ---", `getMemoryBankStats` reports
`totalEntries = 2`, not 1: the `---` runs inside the details are taken for
entry delimiters by the split-based counter. -/
theorem c5_memory_bank_counterexample :
    getMemoryBankStatsTotal (memAfter [c5BadEntry]) ≠ [c5BadEntry].length ∧
    getMemoryBankStatsTotal (memAfter [c5BadEntry]) = 2 := by
  decide

set_option maxRecDepth 8192 in
/-- C5 (amended): after `clearMemoryBank` and a `logToMemoryBank` call for
each entry of `es` in order, provided no written field of any entry
contains `---` as a substring, `getMemoryBankStats` reports
`totalEntries` equal to the number of entries logged. -/
theorem c5_memory_bank_stats (es : List MemoryBankEntry)
    (h : ∀ e ∈ es, entryFieldsSafe e) :
    getMemoryBankStatsTotal (memAfter es) = es.length := by
  rw [getMemoryBankStatsTotal, splitSepMB_memAfter es h]
  rw [List.filter_cons, if_pos (by decide)]
  rw [List.length_cons, filter_entryPieces es ['\n', '\n'] (by decide)]
  omega

set_option maxRecDepth 8192 in
theorem c5_memory_bank_stats_witness :
    getMemoryBankStatsTotal (memAfter
      [⟨"2024-01-01T00:00:00Z", "epic-create", "Created epic auth",
        [("epic", "auth")], true, none⟩,
       ⟨"2024-01-01T00:05:00Z", "task-create", "Task creation failed",
        [], false, some "boom"⟩]) = 2 :=
  c5_memory_bank_stats _ (by decide)

/-! ## Tool registry — `tool-registry.ts` lines 69-80 and 234-264, and the
Context7 client validator — `context7-client.ts` lines 119-155

The registry `Map` is modelled as an insertion-ordered association list.
A tool's metadata is modelled with its string fields (an absent TS field
is the falsy empty string), the presence of the zod input schema as a
`Bool`, and the Context7 query list. A `ValidationResult`'s absent
`warnings` field is the empty list. -/

structure ToolMetadata where
  name : String
  category : String
  description : String
  inputSchema : Bool
  context7Queries : List String
  version : String
deriving DecidableEq

/-- `ToolRegistry.validateMetadata` (`tool-registry.ts` lines 234-264);
the thrown errors become `Except.error`, and the `for` loop throwing on
the first ill-prefixed query is `List.find?`. -/
def validateMetadata (m : ToolMetadata) : Except String Unit :=
  if (jsTrim m.name.data).length = 0 then
    Except.error "Tool name is required"
  else if (jsTrim m.description.data).length = 0 then
    Except.error "Tool description is required"
  else if m.inputSchema = false then
    Except.error "Tool input schema is required"
  else if m.context7Queries.isEmpty then
    Except.error "At least one Context7 query is required"
  else
    match m.context7Queries.find?
        (fun q => !("mcp://context7/".data.isPrefixOf q.data)) with
    | some q => Except.error ("Invalid Context7 query format: " ++ q)
    | none =>
      if m.version = "" then Except.error "Tool version is required"
      else if m.category = "" then Except.error "Tool category is required"
      else Except.ok ()

/-- `ToolRegistry.register` (`tool-registry.ts` lines 69-80): duplicate
check, metadata validation, then `Map.set` (an append for a fresh key). -/
def register (reg : List (String × ToolMetadata)) (name : String)
    (m : ToolMetadata) : Except String (List (String × ToolMetadata)) :=
  if reg.any (fun kv => kv.1 == name) then
    Except.error ("Tool " ++ name ++ " already registered")
  else
    match validateMetadata m with
    | Except.error e => Except.error e
    | Except.ok _ => Except.ok (reg ++ [(name, m)])

structure ValidationResult where
  valid : Bool
  error : Option String
  warnings : List String
deriving DecidableEq

/-- `split('/')`: left-to-right on every slash. -/
def splitSlash : List Char → List (List Char)
  | [] => [[]]
  | '/' :: rest => [] :: splitSlash rest
  | c :: rest =>
    match splitSlash rest with
    | h :: t => (c :: h) :: t
    | [] => [[c]]

def c7WarnMsg (q : String) : String :=
  "Query " ++ q ++ " should have format: mcp://context7/<library>/<topic>"

/-- The loop of `Context7Client.validateQueries` (`context7-client.ts`
lines 133-149); under the prefix guard, `replace('mcp://context7/', '')`
removes the leading occurrence, i.e. drops 15 characters. -/
def vqLoop : List String → List String → ValidationResult
  | ws, [] => ValidationResult.mk true none ws
  | ws, q :: rest =>
    if "mcp://context7/".data.isPrefixOf q.data then
      if (splitSlash (q.data.drop 15)).length < 2 then
        vqLoop (ws ++ [c7WarnMsg q]) rest
      else vqLoop ws rest
    else
      ValidationResult.mk false
        (some ("Invalid Context7 query format: " ++ q ++
          ". Must start with \"mcp://context7/\"")) []

/-- `Context7Client.validateQueries` (`context7-client.ts` lines 119-155). -/
def validateQueries (toolName : String) (queries : List String) :
    ValidationResult :=
  if queries.isEmpty then
    ValidationResult.mk false
      (some ("Tool " ++ toolName ++
        " missing Context7 queries. At least one query is required.")) []
  else vqLoop [] queries

/-- Splits a character list at the first occurrence of `://`. -/
def schemeSplit : List Char → Option (List Char × List Char)
  | ':' :: '/' :: '/' :: rest => some ([], rest)
  | c :: rest => (schemeSplit rest).map (fun p => (c :: p.1, p.2))
  | [] => none

/-- Modelled from the spec: a documentation reference of the shape
`scheme://host/segment/segment` — a nonempty slash-free scheme before
`://`, then exactly a host and two path segments, all nonempty. -/
def specRefShape (q : String) : Bool :=
  match schemeSplit q.data with
  | some (scheme, rest) =>
    !scheme.isEmpty && scheme.all (fun c => !(c == '/')) &&
    (match splitSlash rest with
     | [host, s1, s2] => !host.isEmpty && !s1.isEmpty && !s2.isEmpty
     | _ => false)
  | none => false

theorem vqLoop_all_prefix : ∀ (qs ws : List String),
    (∀ q ∈ qs, "mcp://context7/".data.isPrefixOf q.data = true) →
    vqLoop ws qs = ValidationResult.mk true none
      (ws ++ (qs.filter
        (fun q => decide ((splitSlash (q.data.drop 15)).length < 2))).map c7WarnMsg) := by
  intro qs
  induction qs with
  | nil =>
    intro ws _
    rw [vqLoop]
    simp
  | cons q rest ih =>
    intro ws h
    have hq := h q (by simp)
    rw [vqLoop, if_pos hq, List.filter_cons]
    by_cases hlt : (splitSlash (q.data.drop 15)).length < 2
    · rw [if_pos hlt, if_pos (by simpa using hlt),
        ih (ws ++ [c7WarnMsg q]) (fun q2 hq2 => h q2 (by simp [hq2]))]
      simp
    · rw [if_neg hlt, if_neg (by simpa using hlt),
        ih ws (fun q2 hq2 => h q2 (by simp [hq2]))]

/-! ### Claim theorems for C6 -/

/-- A well-formed registration whose single Context7 query has only one
path segment after the prefix. -/
def c6Meta : ToolMetadata :=
  ToolMetadata.mk "demo-tool" "project-management" "A demo tool" true
    ["mcp://context7/react"] "1.0.0"

/-- C6 counterexample: `register` accepts the reference
`mcp://context7/react` although it does not match the claimed shape
`scheme://host/segment/segment` (after the scheme there is a host and a
single segment, not two): the code checks only the literal prefix
`mcp://context7/`. -/
theorem c6_registration_gate_counterexample :
    register [] "demo-tool" c6Meta = Except.ok [("demo-tool", c6Meta)] ∧
    specRefShape "mcp://context7/react" = false := by
  exact ⟨rfl, by decide⟩

/-- C6 (amended): a duplicate name is rejected with the duplicate error;
`register` succeeds exactly when the name is fresh and the metadata
validates, appending the tool; the metadata validates exactly when name
and description are nonblank, a schema is present, the query list is
nonempty with every query bearing the literal prefix `mcp://context7/`
(no full rich-shape check), and version and category are nonempty; a
missing description is reported by name; and the Context7 client
validator (not `register`) accepts a nonempty list of well-prefixed
queries, warning exactly on those with fewer than two path segments
after the prefix. -/
theorem c6_registration_gate (reg : List (String × ToolMetadata))
    (name : String) (m : ToolMetadata) :
    (reg.any (fun kv => kv.1 == name) = true →
      register reg name m
        = Except.error ("Tool " ++ name ++ " already registered")) ∧
    (∀ r, register reg name m = Except.ok r ↔
      (reg.any (fun kv => kv.1 == name) = false ∧
       validateMetadata m = Except.ok () ∧ r = reg ++ [(name, m)])) ∧
    (validateMetadata m = Except.ok () ↔
      (0 < (jsTrim m.name.data).length ∧
       0 < (jsTrim m.description.data).length ∧
       m.inputSchema = true ∧
       m.context7Queries ≠ [] ∧
       (∀ q ∈ m.context7Queries,
         "mcp://context7/".data.isPrefixOf q.data = true) ∧
       m.version ≠ "" ∧ m.category ≠ "")) ∧
    (0 < (jsTrim m.name.data).length →
      (jsTrim m.description.data).length = 0 →
      validateMetadata m = Except.error "Tool description is required") ∧
    ((∀ q ∈ m.context7Queries,
        "mcp://context7/".data.isPrefixOf q.data = true) →
      m.context7Queries ≠ [] →
      validateQueries name m.context7Queries = ValidationResult.mk true none
        ((m.context7Queries.filter
          (fun q => decide ((splitSlash (q.data.drop 15)).length < 2))).map
            c7WarnMsg)) := by
  refine ⟨?_, ?_, ?_, ?_, ?_⟩
  · intro hdup
    rw [register, if_pos hdup]
  · intro r
    constructor
    · intro hok
      rw [register] at hok
      by_cases hdup : reg.any (fun kv => kv.1 == name) = true
      · rw [if_pos hdup] at hok
        exact absurd hok (by simp)
      · rw [if_neg hdup] at hok
        refine ⟨Bool.not_eq_true _ ▸ hdup, ?_, ?_⟩
        · cases hvm : validateMetadata m with
          | error e =>
            rw [hvm] at hok
            exact absurd hok (by simp)
          | ok u => cases u; rfl
        · cases hvm : validateMetadata m with
          | error e =>
            rw [hvm] at hok
            exact absurd hok (by simp)
          | ok u =>
            rw [hvm] at hok
            simpa using hok.symm
    · rintro ⟨h1, h2, h3⟩
      rw [register, if_neg (by simp [h1]), h2, h3]
  · constructor
    · intro hok
      rw [validateMetadata] at hok
      by_cases h1 : (jsTrim m.name.data).length = 0
      · rw [if_pos h1] at hok
        exact absurd hok (by simp)
      rw [if_neg h1] at hok
      by_cases h2 : (jsTrim m.description.data).length = 0
      · rw [if_pos h2] at hok
        exact absurd hok (by simp)
      rw [if_neg h2] at hok
      by_cases h3 : m.inputSchema = false
      · rw [if_pos h3] at hok
        exact absurd hok (by simp)
      rw [if_neg h3] at hok
      by_cases h4 : m.context7Queries.isEmpty = true
      · rw [if_pos h4] at hok
        exact absurd hok (by simp)
      rw [if_neg h4] at hok
      cases hfind : m.context7Queries.find?
          (fun q => !("mcp://context7/".data.isPrefixOf q.data)) with
      | some q =>
        rw [hfind] at hok
        exact absurd hok (by simp)
      | none =>
        rw [hfind] at hok
        by_cases h5 : m.version = ""
        · rw [if_pos h5] at hok
          exact absurd hok (by simp)
        rw [if_neg h5] at hok
        by_cases h6 : m.category = ""
        · rw [if_pos h6] at hok
          exact absurd hok (by simp)
        refine ⟨by omega, by omega, by simpa using h3, ?_, ?_, h5, h6⟩
        · intro hnil
          rw [hnil] at h4
          exact h4 rfl
        · intro q hq
          have := List.find?_eq_none.mp hfind q hq
          simpa using this
    · rintro ⟨h1, h2, h3, h4, h5, h6, h7⟩
      rw [validateMetadata, if_neg (by omega), if_neg (by omega),
        if_neg (by simp [h3]),
        if_neg (by simp [List.isEmpty_iff, h4]),
        List.find?_eq_none.mpr (fun q hq => by simp [h5 q hq]),
        if_neg h6, if_neg h7]
  · intro h1 h2
    rw [validateMetadata, if_neg (by omega), if_pos h2]
  · intro hpre hne
    rw [validateQueries, if_neg (by simp [List.isEmpty_iff, hne]),
      vqLoop_all_prefix m.context7Queries [] hpre]
    simp

theorem c6_registration_gate_witness :
    validateQueries "demo-tool" ["mcp://context7/react"]
      = ValidationResult.mk true none
          ["Query mcp://context7/react should have format: mcp://context7/<library>/<topic>"] :=
  (c6_registration_gate [] "demo-tool" c6Meta).2.2.2.2 (by decide) (by decide)

end GeminiAutoPM
